import Mathlib

/-!
Shallow embedding of the skill normalization and grouping engine of
`SkillNormalizer.py` (the Python source of this repository), together with
proofs about the claims of its specification.

Python strings are modelled as `List Char` (`Str`).  The regular expressions
used by the source are fixed, so each one is embedded as a dedicated function
with the exact semantics of the pattern:

* `\b` (word boundary) is a position whose two neighbouring characters differ
  in word-ness (`[a-zA-Z0-9_]`), string edges counting as non-word;
* `re.search(rf'\b{re.escape(x)}\b', s)` is `searchWord x s` (the escape makes
  the pattern a literal);
* `re.sub(rf'\b{re.escape(x)}\b', y, s)` is `wordSub x y s` (leftmost,
  non-overlapping matches, found in the subject before splicing, exactly as
  `re.sub` behaves for patterns without zero-width tricks);
* `re.sub(r"[^a-z0-9\s]+", "", s)` is a character filter;
* `re.sub(r'\s+', ' ', s)` is `collapseWs`;
* `r"\d+\+?\s*years?"` with `re.IGNORECASE` is `expSearch` (for a search,
  the greedy sub-matches never need backtracking: after a digit run the only
  viable continuation is an optional `+`, whitespace, then `year`).

Character classes are the ASCII fragments (`\s` = space/tab/newline/CR/VT/FF,
`\w` = alphanumerics plus underscore, `\d` = decimal digits); the engine's
data is ASCII and its normalizer erases everything outside `[a-z0-9\s]`.

`difflib.SequenceMatcher(None, a, b).ratio()` is `2*M/(len a + len b)` where
`M` is the total size of the matching blocks; `find_longest_match` without
junk returns the longest common substring, ties broken by the smallest index
in `a`, then in `b`, which is what `longestMatch` computes.  The comparison
`ratio() >= 0.8` is modelled by the exact rational inequality
`10*M ≥ 4*(len a + len b)`: because the rationals `2M/T` with the small
denominators arising here are never within one ulp of the binary double
nearest to 0.8, the float comparison agrees with the rational one.
(`difflib`'s autojunk heuristic only alters the result when the second
string has 200 or more characters; it is not modelled.)
-/

set_option maxHeartbeats 2000000
set_option maxRecDepth 8000

abbrev Str := List Char

def lit (s : String) : Str := s.data

/-- Python whitespace class (the ASCII characters matched by `\s` and
stripped by `str.strip()` / split on by `str.split()`). -/
def isSpacePy (c : Char) : Bool :=
  c = ' ' || c = '\t' || c = '\n' || c = '\r' || c = '\x0b' || c = '\x0c'

/-- Python word-character class `\w` (ASCII fragment). -/
def isWordChar (c : Char) : Bool := c.isAlphanum || c = '_'

/-- Characters kept by `re.sub(r"[^a-z0-9\s]+", "", ·)`. -/
def keepAlnumSpace (c : Char) : Bool :=
  ('a' ≤ c && c ≤ 'z') || ('0' ≤ c && c ≤ '9') || isSpacePy c

theorem lengthDropWhileLe (p : Char → Bool) (l : Str) :
    (l.dropWhile p).length ≤ l.length :=
  (List.dropWhile_sublist p).length_le

/-- Drop trailing Python whitespace (the right half of `str.strip()`). -/
def dropTrailingWs : Str → Str
  | [] => []
  | c :: rest =>
    let r := dropTrailingWs rest
    if r.isEmpty && isSpacePy c then [] else c :: r

/-- Python `str.strip()`. -/
def stripPy (s : Str) : Str := dropTrailingWs (s.dropWhile isSpacePy)

/-- Number of maximal non-whitespace runs: `len(s.split())`.  The fuel of
the auxiliary function is the length of the remaining string, which every
step decreases by at least one. -/
def wordCountAux : Nat → Str → Nat
  | _, [] => 0
  | 0, _ => 0
  | fuel + 1, c :: rest =>
    if isSpacePy c then wordCountAux fuel rest
    else wordCountAux fuel (rest.dropWhile (fun d => !isSpacePy d)) + 1

def wordCount (s : Str) : Nat := wordCountAux s.length s

/-- Python substring test `pat in s`. -/
def containsSub (pat : Str) : Str → Bool
  | [] => pat.isEmpty
  | c :: rest => pat.isPrefixOf (c :: rest) || containsSub pat rest

/-- Python `s.replace(pat, rep)`: all non-overlapping occurrences, scanned
left to right.  The fuel argument of the auxiliary function is the length of
the remaining string, which each step decreases by at least one (all patterns
used by the source are non-empty). -/
def pyReplaceAux (pat rep : Str) : Nat → Str → Str
  | _, [] => []
  | 0, s => s
  | fuel + 1, c :: rest =>
    if !pat.isEmpty && pat.isPrefixOf (c :: rest) then
      rep ++ pyReplaceAux pat rep fuel ((c :: rest).drop pat.length)
    else c :: pyReplaceAux pat rep fuel rest

def pyReplace (s pat rep : Str) : Str := pyReplaceAux pat rep s.length s

/-- Python `re.sub(r'\s+', ' ', s)`.  The fuel of the auxiliary function is
the length of the remaining string, which every step decreases by at least
one. -/
def collapseWsAux : Nat → Str → Str
  | _, [] => []
  | 0, s => s
  | fuel + 1, c :: rest =>
    if isSpacePy c then ' ' :: collapseWsAux fuel (rest.dropWhile isSpacePy)
    else c :: collapseWsAux fuel rest

def collapseWs (s : Str) : Str := collapseWsAux s.length s

/-- Word-ness of the character at an index (out of range counts as
non-word, matching how `\b` treats the ends of the subject). -/
def wordAtPos (s : Str) (i : Nat) : Bool :=
  match s[i]? with
  | some c => isWordChar c
  | none => false

/-- Truth of `\b` at position `i` (between `s[i-1]` and `s[i]`). -/
def boundaryAt (s : Str) (i : Nat) : Bool :=
  match i with
  | 0 => wordAtPos s 0
  | j + 1 => wordAtPos s (j + 1) != wordAtPos s j

/-- Match of the literal pattern `\b pat \b` at position `i` of `s`. -/
def matchWordAt (pat s : Str) (i : Nat) : Bool :=
  pat.isPrefixOf (s.drop i) && boundaryAt s i && boundaryAt s (i + pat.length)

/-- Python `re.search(rf'\b{re.escape(pat)}\b', s) is not None`. -/
def searchWord (pat s : Str) : Bool :=
  (List.range (s.length + 1)).any (matchWordAt pat s)

/-- Auxiliary scan of `re.sub(rf'\b{re.escape(pat)}\b', rep, s)`: emit the
subject character by character, splicing `rep` over each leftmost match and
resuming after it.  Fuel `s.length + 1` suffices since the index grows by at
least one per step (the patterns substituted by the source are non-empty). -/
def wordSubAux (pat rep s : Str) : Nat → Nat → Str
  | _, 0 => []
  | i, fuel + 1 =>
    match s[i]? with
    | none => []
    | some c =>
      if matchWordAt pat s i then rep ++ wordSubAux pat rep s (i + max pat.length 1) fuel
      else c :: wordSubAux pat rep s (i + 1) fuel

def wordSub (pat rep s : Str) : Str := wordSubAux pat rep s 0 (s.length + 1)

/-- Match of `\d+\+?\s*years?` (case-insensitive) starting at index `i`:
a digit here, then past the digit run an optional `+`, optional whitespace
and the letters `year`.  (Starting inside a digit run reaches the same
continuation, and the greedy quantifiers never need to backtrack, so this
is exactly the existence of a regex match.) -/
def matchExpAt (s : Str) (i : Nat) : Bool :=
  match s[i]? with
  | none => false
  | some c =>
    c.isDigit &&
      (let t := (s.drop i).dropWhile Char.isDigit
       let t := match t with
         | '+' :: r => r
         | r => r
       let t := t.dropWhile isSpacePy
       (lit "year").isPrefixOf (t.map Char.toLower))

/-- Python `re.search(r"\d+\+?\s*years?", s, re.IGNORECASE) is not None`. -/
def expSearch (s : Str) : Bool := (List.range s.length).any (matchExpAt s)

/-- Longest common prefix length of two strings. -/
def commonPrefixLen : Str → Str → Nat
  | a :: as, b :: bs => if a = b then commonPrefixLen as bs + 1 else 0
  | _, _ => 0

/-- Length of the common run of `a` at `i` and `b` at `j`. -/
def runLen (a b : Str) (i j : Nat) : Nat := commonPrefixLen (a.drop i) (b.drop j)

/-- Scan of all start pairs for `longestMatch`, keeping the first maximum
(the accumulator is destructured at every step so that evaluation stays
iterative). -/
def lmStep (a b : Str) : List (Nat × Nat) → Nat × Nat × Nat → Nat × Nat × Nat
  | [], best => best
  | (i, j) :: rest, (bi, bj, bk) =>
    let k := runLen a b i j
    if bk < k then lmStep a b rest (i, j, k) else lmStep a b rest (bi, bj, bk)

/-- All candidate start pairs, in ascending `i`, then `j`. -/
def lmPairs (a b : Str) : List (Nat × Nat) :=
  (List.range (a.length + 1)).flatMap (fun i =>
    (List.range (b.length + 1)).map (fun j => (i, j)))

/-- `difflib`'s `find_longest_match` over whole strings (no junk): the
longest common substring `(i, j, size)`, ties broken by the smallest `i`,
then the smallest `j` (the strict comparison keeps the first maximum in
scan order, exactly the tie-breaking of the `j2len` loop of `difflib`);
`(0, 0, 0)` when there is none. -/
def longestMatch (a b : Str) : Nat × Nat × Nat := lmStep a b (lmPairs a b) (0, 0, 0)

/-- Total size of the matching blocks of `difflib.SequenceMatcher(None, a, b)`:
recursively take the longest match and recurse on both sides.  The fuel
bounds the recursion depth, which the strictly shrinking slices keep below
`a.length + b.length + 1`. -/
def matchTotalAux : Nat → Str → Str → Nat
  | 0, _, _ => 0
  | fuel + 1, a, b =>
    let m := longestMatch a b
    if m.2.2 = 0 then 0
    else
      m.2.2 + matchTotalAux fuel (a.take m.1) (b.take m.2.1) +
        matchTotalAux fuel (a.drop (m.1 + m.2.2)) (b.drop (m.2.1 + m.2.2))

def matchTotal (a b : Str) : Nat := matchTotalAux (a.length + b.length + 1) a b

/-- The source's `SIMILARITY_THRESHOLD = 0.8` comparison
`SequenceMatcher(None, a, b).ratio() >= 0.8`, as the exact rational
inequality `2*M/(|a|+|b|) ≥ 4/5` (see the header note on floats; `ratio()`
of two empty strings is defined as `1.0`, and `0 ≥ 0` agrees). -/
def ratioAtLeast (a b : Str) : Bool :=
  4 * (a.length + b.length) ≤ 10 * matchTotal a b

/-- Ordered alias table `CATEGORY_ALIASES` of the source (a Python dict,
iterated in insertion order by the Normalizer). -/
def CATEGORY_ALIASES : List (String × String) :=
  [("aspnet", "dotnet"), ("dotnetcore", "dotnet"), ("netcore", "dotnet"),
   ("c#", "csharp"), ("asp.net", "aspdotnet"),
   ("oop", "object oriented programming"),
   ("devops", "ci/cd"), ("cloud", "cloud computing"), ("db", "database")]

/-- The source's `normalize_skill`: lowercase and strip, literal
`.net`/`c#` substitutions, separators to spaces (or ` and `), erase
everything outside `[a-z0-9\s]`, word-boundary alias substitution in table
order, collapse whitespace and strip. -/
def normalize_skill (s : Str) : Str :=
  if s.isEmpty then []
  else
    let sk := stripPy (s.map Char.toLower)
    let sk := pyReplace sk (lit ".net") (lit "dotnet")
    let sk := pyReplace sk (lit "c#") (lit "csharp")
    let sk := pyReplace sk (lit "&") (lit " and ")
    let sk := pyReplace sk (lit "/") (lit " ")
    let sk := pyReplace sk (lit "-") (lit " ")
    let sk := sk.filter keepAlnumSpace
    let sk := CATEGORY_ALIASES.foldl (fun acc p => wordSub p.1.data p.2.data acc) sk
    stripPy (collapseWs sk)

/-- `DISCARD_PHRASES` of the source. -/
def DISCARD_PHRASES : List String :=
  ["years of experience", "experience with", "knowledge of", "understanding of"]

/-- The source's `should_discard`: too short or more than six words, an
experience-duration pattern (`EXPERIENCE_PATTERNS = [r"\d+\+?\s*years?"]`),
or a discard phrase contained in the lowercased string. -/
def should_discard (s : Str) : Bool :=
  if (stripPy s).length < 2 || 6 < wordCount s then true
  else if expSearch s then true
  else DISCARD_PHRASES.any (fun p => containsSub p.data (s.map Char.toLower))

def MIN_GROUP_SIZE : Nat := 3

/-- The source's `should_group_together`: equality or word-boundary
containment of the normalized keys, equal 4-character slices when both keys
have length at most 5, else the `SequenceMatcher` ratio test. -/
def should_group_together (a b : Str) : Bool :=
  let na := normalize_skill a
  let nb := normalize_skill b
  if na == nb || searchWord na nb || searchWord nb na then true
  else if na.take 4 == nb.take 4 && decide (na.length ≤ 5) && decide (nb.length ≤ 5) then true
  else ratioAtLeast na nb

/- Values of the taxonomy dictionary: a keyword list (leaf) or a nested
dict.  A dict is an insertion-ordered sequence of name/value pairs, as in
Python; the mutual pair of inductives is the usual unfolding of a tree with
list-valued children. -/
mutual
/-- Taxonomy value: keyword-list leaf or nested dict. -/
inductive PyVal where
  | strs : List String → PyVal
  | dict : PyDict → PyVal
/-- Insertion-ordered dict of taxonomy entries. -/
inductive PyDict where
  | nil : PyDict
  | cons : String → PyVal → PyDict → PyDict
end

/-- Dict literal from an association-list literal. -/
def pyDictOf : List (String × PyVal) → PyDict
  | [] => PyDict.nil
  | (c, v) :: rest => PyDict.cons c v (pyDictOf rest)

/-- Dict node from an association-list literal. -/
def pyNode (l : List (String × PyVal)) : PyVal := PyVal.dict (pyDictOf l)

mutual
/-- Walk of `flatten_categories` over a dict: in insertion order, a leaf
contributes its path and keywords, and a sub-dict is flattened with the
parent name and `_` appended to the accumulated path.  (The Python original
collects into a dict with `flat.update`; all flattened paths of the source
data are distinct, so the insertion-ordered association list is the same
mapping.) -/
def flattenD : PyDict → String → List (String × List String)
  | PyDict.nil, _ => []
  | PyDict.cons cat v rest, pre => flattenV v pre cat ++ flattenD rest pre
/-- Walk of `flatten_categories` over one dict value. -/
def flattenV : PyVal → String → String → List (String × List String)
  | PyVal.strs kws, pre, cat => [(pre ++ cat, kws)]
  | PyVal.dict sub, pre, cat => flattenD sub (pre ++ cat ++ "_")
end

def flatten_categories (h : List (String × PyVal)) (pre : String) :
    List (String × List String) :=
  flattenD (pyDictOf h) pre

/-- The `GENERAL_TECH` sub-dictionary of `CATEGORY_HIERARCHY['TECHNICAL']`
(used directly by the fallback loop of `determine_primary_category`). -/
def GENERAL_TECH_CATS : List (String × List String) :=
  [("SOFTWARE_DEVELOPMENT",
    ["ability to refactor complex, monolithic systems",
     "developed high-quality, testable software",
     "solid background in data processing",
     "performance and memory optimization techniques",
     "performance optimization",
     "strong development background",
     "high-performance, memory efficient, multithreaded code",
     "high-performance, memory-efficient, multithreaded code",
     "multi-threaded software",
     "multithreaded code",
     "object-oriented design",
     "object-oriented design concepts",
     "object-oriented languages",
     "object-relational mapping",
     "oo design",
     "code quality and standards adherence",
     "code reviews",
     "coding standards and code reviews",
     "debugging",
     "debugging and optimization",
     "debugging and performance optimization",
     "debugging memory corruptions",
     "debugging tools",
     "algorithm optimization",
     "experience across the entire development lifecycle",
     "full software development life cycle experience",
     "use of software development tools",
     "well-designed code and solid programming skills"]),
   ("WEB_DEVELOPMENT",
    ["back-end development",
     "back-end development with some front-end experience",
     "background in full stack development",
     "building web applications at scale",
     "experience building web applications",
     "front-end design",
     "front-end frameworks",
     "frontend technologies",
     "full-stack development",
     "full-stack web development",
     "modern frontend frameworks",
     "web application development",
     "web applications",
     "web development",
     "web frameworks",
     "web technologies",
     "html5",
     "html5+",
     "html5/css3",
     "css3+",
     "mvc",
     "ui frameworks",
     "ux design"]),
   ("DATABASES",
    ["advanced experience in relational databases",
     "data capture",
     "data deduplication",
     "data storage",
     "database design and query optimization",
     "database development",
     "database management",
     "database optimization",
     "database optimization experience",
     "database software",
     "document databases",
     "experience working with databases",
     "experience working with relational databases",
     "has executed large scale data migrations",
     "proficiency with database operations and queries",
     "relational databases",
     "strong experience in relational databases",
     "understands large datasets and data mapping"]),
   ("CLOUD_DEVOPS",
    ["bicep/arm templates",
     "ci/cd",
     "ci/cd methodologies",
     "ci/cd pipelines",
     "ci/cd tools",
     "containers",
     "continuous deployment",
     "designing ci/cd pipelines and build",
     "experience in ci/cd",
     "experience working with containers",
     "familiarity with ci/cd pipeline",
     "familiarity with containerization and orchestration",
     "proficient with ci/cd concepts and tooling",
     "build processes and testing",
     "build processes, testing, and operations experience",
     "build systems",
     "logging and telemetry",
     "monitoring tools",
     "source control",
     "source control management",
     "experience using source control software",
     "version control",
     "high availability systems",
     "high performing transaction systems",
     "scalability",
     "scalable frameworks",
     "system performance",
     "systems design",
     "systems design skills"]),
   ("TESTING_QA",
    ["automated tests",
     "experience in fast-paced, test-driven, collaborative environments",
     "familiarity with test-driven development",
     "software testing and test-driven development",
     "test driven development",
     "test driven development techniques",
     "test framework design",
     "test framework design and development",
     "test frameworks",
     "test-driven development",
     "testing",
     "testing and debugging applications",
     "unit and integration testing",
     "unit testing",
     "unit testing, dependency injection, ci/cd",
     "unit/integration testing"]),
   ("TOOLS_PLATFORMS",
    ["adobe experience manager",
     "adobe photoshop",
     "autocad/revit",
     "blender",
     "computer-aided design",
     "cad development",
     "copilot studio",
     "dynamics 365 business central/nav",
     "dynamics 365 f&o",
     "dynamics 365 finance & operations",
     "dynamics 365 finance and operations",
     "dynamics 365 sdk",
     "dynamics 365/crm",
     "gis systems",
     "experience using gis systems",
     "google analytics experience",
     "microsoft dataverse",
     "microsoft dynamics 365 ce",
     "next.js",
     "node.js",
     "nodejs",
     "opentext teamsite/livesite",
     "power apps",
     "power automate",
     "power pages",
     "power platform",
     "power platform experience",
     "react.js",
     "react.js/vue.js/angular.js",
     "reactive native technology",
     "salesforce",
     "salesforce data models",
     "sharepoint",
     "sharepoint online development experience",
     "shopify",
     "sketchup",
     "springboot",
     "ssrs",
     "ssrs, ssas, ssis",
     "starlims data model",
     "starlims qm v12",
     "vb.net",
     "vb.net experience",
     "visualforce",
     "vue.js",
     "wordpress",
     "x++",
     "x++ development"]),
   ("SOFT_SKILLS",
    ["ability to build trusted relationships",
     "ability to coach and mentor",
     "ability to conduct remote sessions",
     "ability to empathize with users",
     "ability to manage multiple projects simultaneously",
     "ability to mentor and collaborate",
     "ability to multi-task",
     "ability to organize and prioritize work",
     "ability to work cross-functionally",
     "accountability",
     "attention to detail",
     "attention to detail and punctual",
     "collaborating with infrastructure team",
     "collaboration",
     "collaboration with cross-functional teams",
     "collaboration with global teams",
     "collaborative and dynamic skills",
     "collaborative and eager to contribute ideas",
     "collaborative and team-oriented",
     "collaborative team environment",
     "collaborative team environment experience",
     "collaborative team player",
     "collaborative teamwork",
     "conflict resolution and consensus building",
     "continuous improvement",
     "continuous learning and adaptability",
     "creativity",
     "critical thinker and problem solver",
     "curious, always learning",
     "demonstrated ability to communicate",
     "eager & willing to learn",
     "energy and passion",
     "english, both written and verbal",
     "enjoy working with diverse groups",
     "entrepreneurial mindset",
     "entrepreneurial spirit",
     "excellent organizational and time management skills",
     "excellent organizational skills",
     "excellent troubleshooting skills",
     "flexible scheduling",
     "growth mindset",
     "growth-oriented perspective",
     "initiative and results-driven",
     "initiative to manage your own workload",
     "influencing and reasoning skills",
     "organized",
     "organized with strong prioritization skills",
     "passion for learning and sharing knowledge",
     "passion for technology and code",
     "problem solver",
     "self-driven",
     "self-motivated and competent to work independently",
     "self-motivated and great organizational skills",
     "self-motivated and independent",
     "self-motivated and passionate about ui systems",
     "self-motivated and works with minimal supervision",
     "self-motivated, responsible, and a fast learner",
     "self-starter and key contributor",
     "smiling and making others smile",
     "strong sense of responsibility",
     "strong written and verbal communicator",
     "strong written and verbal english skills",
     "team player",
     "team work",
     "teamwork",
     "thrive in a collaborative environment",
     "user-focused, passionate, solutions-focused, and innovative",
     "working under pressure"]),
   ("INDUSTRY_SPECIFIC",
    ["3d metrology",
     "adjustment to manufacturer's specifications",
     "ax",
     "big data analytics",
     "business and systems analysis",
     "business statistics",
     "business statistics knowledge",
     "care coordination",
     "care for people and user experience",
     "chemistry",
     "civil engineering",
     "cold calling",
     "cold calling and lead generation",
     "com",
     "comfort with technology",
     "community outreach",
     "demonstrated ability in cpr techniques",
     "demonstrated ability to operate related equipment",
     "demonstrated ndt skill, knowledge or experience",
     "demonstrated success in leading development teams",
     "desktop application development",
     "diagnostic and repair skills",
     "diagnostic radiographic/fluoroscopic procedures",
     "distributed applications",
     "ebpf",
     "emergency care",
     "erp development experience",
     "erp integration",
     "erp integration experience",
     "event marketing",
     "event set up and tear down",
     "expertise in chemistry",
     "expertise in windows development",
     "familiarity of modern cpu/gpu hardware architectures",
     "familiarity with cache stores",
     "familiarity with nginx",
     "familiarity with restful api design principles",
     "familiarity with ui development",
     "firewalls",
     "food preparation",
     "forklift operation",
     "foxpro",
     "game development",
     "game industry experience",
     "gdscript",
     "googletest",
     "grade 12 diploma or equivalent",
     "groovy",
     "hand-eye coordination",
     "high school diploma or ged",
     "high school diploma/ged",
     "identity and access management",
     "inspection and testing of mechanical units",
     "intermediate math skills",
     "kernel-level development",
     "kernel-mode drivers",
     "knowledge and experience applying disa stigs",
     "kql",
     "kvm hypervisor",
     "lead generation",
     "legally able to work in canada",
     "lighting and imaging understanding",
     "linkedin for recruiting",
     "low-level graphics apis",
     "macos/windows development",
     "malware analysis",
     "manual dexterity",
     "map-reduce",
     "marine engineering",
     "mdm frameworks",
     "mechanical aptitude",
     "mechanical knowledge",
     "meeting preparation and consultant engagement",
     "mentor and coach junior team members",
     "metadata-driven definitional development experience",
     "micro-services",
     "minimum of five years industry experience",
     "ndt methods expertise",
     "net development experience",
     "network programming",
     "network programming and kernel-level experience",
     "network protocols",
     "network protocols/socket programming",
     "networked game principles",
     "nursing interventions",
     "oncology nursing",
     "one or more scripting languages",
     "open source development",
     "open source experience and involvement",
     "open source frameworks",
     "operating radiographic and computerized imaging equipment",
     "operating systems concepts",
     "operational excellence",
     "operations experience",
     "patient assessment",
     "patient care and safety monitoring",
     "payments or financial systems experience",
     "payments or risk experience",
     "physical demands compliance",
     "physical stamina",
     "posix apis",
     "previous game design/development experience",
     "private connectivity",
     "process builders",
     "product demonstrations",
     "product knowledge",
     "professional appearance and conduct",
     "proficient with graphics debugging tools",
     "quality and process improvement",
     "radiation protection practices",
     "radiology information system",
     "real-time rendering",
     "recent experience using knockout.js",
     "recruiting",
     "redis",
     "relevant software programs",
     "research support",
     "routers, network switch development",
     "ror",
     "safety compliance",
     "scala",
     "scheduled maintenance",
     "secure coding practices",
     "secure software development",
     "service oriented architecture",
     "service-oriented architecture",
     "shell",
     "sidekiq",
     "soc architecture",
     "software architecture",
     "software system operation",
     "solution design",
     "strategic thinker and deadline-driven",
     "strong business partnership skills",
     "strong grasp of sockets",
     "strong low-level os internals in windows",
     "strong performance analysis",
     "structural engineering",
     "tcp/ip",
     "tcp/udp/ip",
     "technical support for existing applications",
     "threat modelling",
     "three years recent related oncology experience",
     "triggers",
     "unix o/s",
     "using kitchen tools",
     "valid driver's licence",
     "valid driver's license and insurability",
     "valid passport with no travel restrictions",
     "vnc, remote desktop protocol development",
     "vpc endpoints",
     "web api",
     "web api 2",
     "web services",
     "web services/web apis",
     "websocket",
     "windows api/win32/com",
     "windows internals",
     "windows kernel programming/driver development",
     "windows os development",
     "windows os kernel and driver development",
     "windows server engineering",
     "xml",
     "xslt"]),
   ("LANGUAGE_LOCALIZATION",
    ["bilingual",
     "bilingualism in french and english",
     "fluency in french",
     "french language proficiency"]),
   ("API_DEVELOPMENT",
    ["api and service-level validation",
     "api design",
     "api development",
     "apis",
     "event-driven architecture",
     "experience building restful apis",
     "expertise in developing apis",
     "familiarity with restful api design principles",
     "restful api",
     "restful api design",
     "restful api design principles",
     "restful apis",
     "experience in web services",
     "web services",
     "web services/web apis"]),
   ("NETWORKING",
    ["dns",
     "firewalls",
     "http",
     "http protocol",
     "hypervisor technologies",
     "ip and network connectivity",
     "internet protocols",
     "private connectivity",
     "tcp/ip",
     "tcp/udp/ip",
     "vpc endpoints"]),
   ("DOCUMENTATION_PORTFOLIO",
    ["a portfolio of past projects",
     "a portfolio of successful projects",
     "balance perfect vs getting it done"])]

/-- The `TECHNICAL` subtree of `CATEGORY_HIERARCHY` (every child is a dict
of keyword-list leaves; `GENERAL_TECH` is the named sub-dictionary above). -/
def TECHNICAL_TREE : List (String × PyVal) :=
  [("PROGRAMMING", pyNode
     [(".NET", PyVal.strs ["dotnet", "csharp", "aspdotnet", "vbnet", "wpf", "winforms", "entityframework"]),
      ("JAVA_ECOSYSTEM", PyVal.strs ["java", "spring", "spring boot", "hibernate", "j2ee", "jakarta ee"]),
      ("PYTHON_ECOSYSTEM", PyVal.strs ["python", "django", "flask", "fastapi", "numpy", "pandas"]),
      ("JAVASCRIPT_TYPESCRIPT", PyVal.strs ["javascript", "typescript", "ecmascript", "es6"]),
      ("GO", PyVal.strs ["golang", "go"]),
      ("RUST", PyVal.strs ["rust"]),
      ("RUBY", PyVal.strs ["ruby", "rails", "ruby on rails"]),
      ("PHP", PyVal.strs ["php", "laravel", "symfony"]),
      ("C_CPP", PyVal.strs ["c", "c\\+\\+", "cplusplus", "cpp"]),
      ("MOBILE", PyVal.strs ["android", "ios", "flutter", "react native", "swift", "kotlin"]),
      ("CONCEPTS", PyVal.strs ["algorithms", "data structures", "design patterns", "oop",
                               "object-oriented", "solid principles", "object oriented programming",
                               "object-oriented programming", "object-oriented design"])]),
   ("FRONTEND", pyNode
     [("FRAMEWORKS", PyVal.strs ["react", "angular", "vue", "svelte", "ember"]),
      ("STYLING", PyVal.strs ["css", "sass", "scss", "less", "bootstrap", "tailwind"]),
      ("BUILD_TOOLS", PyVal.strs ["webpack", "vite", "rollup", "parcel"]),
      ("WEB_COMPONENTS", PyVal.strs ["html", "web components", "shadow dom", "custom elements"])]),
   ("BACKEND", pyNode
     [("APIS", PyVal.strs ["rest", "graphql", "grpc", "soap", "openapi", "swagger"]),
      ("SERVER", PyVal.strs ["node", "express", "nestjs", "koa", "fastify"]),
      ("AUTH", PyVal.strs ["oauth", "jwt", "openid connect", "saml", "ldap"]),
      ("MESSAGING", PyVal.strs ["kafka", "rabbitmq", "nats", "activemq"])]),
   ("DATA", pyNode
     [("DATABASE_SQL", PyVal.strs ["sql", "oracle", "mysql", "postgres", "postgresql", "mssql", "sql server", "plsql"]),
      ("DATABASE_NOSQL", PyVal.strs ["mongodb", "cassandra", "cosmosdb", "dynamodb", "firestore"]),
      ("DATA_ENGINEERING", PyVal.strs ["etl", "data pipeline", "data modeling", "data governance", "data warehouse"]),
      ("BIG_DATA", PyVal.strs ["spark", "hadoop", "hive", "hbase", "bigquery"]),
      ("DATA_SCIENCE", PyVal.strs ["pandas", "numpy", "scipy", "matplotlib", "seaborn"])]),
   ("CLOUD", pyNode
     [("AWS", PyVal.strs ["aws", "lambda", "s3", "cloudfront", "dynamodb", "amazon web services", "ec2", "rds"]),
      ("AZURE", PyVal.strs ["azure", "functions", "entra", "sql database", "microsoft azure", "azure ad"]),
      ("GCP", PyVal.strs ["gcp", "google cloud", "google cloud platform", "bigtable", "cloud functions"]),
      ("CLOUD_GENERAL", PyVal.strs ["kubernetes", "docker", "serverless", "paas", "saas", "iaas", "cloud computing"])]),
   ("DEVOPS", pyNode
     [("CI_CD", PyVal.strs ["ci/cd", "jenkins", "github actions", "gitlab ci", "circleci", "continuous integration"]),
      ("INFRA_AS_CODE", PyVal.strs ["terraform", "pulumi", "cloudformation", "ansible"]),
      ("MONITORING", PyVal.strs ["grafana", "prometheus", "datadog", "new relic", "splunk"]),
      ("VERSION_CONTROL", PyVal.strs ["git", "svn", "mercurial", "perforce"]),
      ("DEVOPS_GENERAL", PyVal.strs ["git", "svn", "mercurial", "perforce", "devops", "build pipelines", "infrastructure as code"])]),
   ("TESTING", pyNode
     [("UNIT_TESTING", PyVal.strs ["junit", "nunit", "pytest", "mocha", "jest"]),
      ("E2E_TESTING", PyVal.strs ["selenium", "cypress", "playwright", "testcafe"]),
      ("PERFORMANCE", PyVal.strs ["jmeter", "gatling", "locust", "k6"]),
      ("TEST_AUTOMATION", PyVal.strs ["test automation", "bdd", "tdd", "qa automation", "automated testing"])]),
   ("ML_AI", pyNode
     [("MACHINE_LEARNING", PyVal.strs ["machine learning", "ml", "tensorflow", "pytorch", "scikit-learn"]),
      ("DEEP_LEARNING", PyVal.strs ["deep learning", "neural networks", "cnn", "rnn"]),
      ("NLP", PyVal.strs ["nlp", "natural language processing", "transformers", "bert"]),
      ("COMPUTER_VISION", PyVal.strs ["computer vision", "opencv", "object detection", "image processing"]),
      ("AI_GENERAL", PyVal.strs ["ai", "artificial intelligence", "llm", "generative ai", "chatgpt"])]),
   ("SECURITY", pyNode
     [("APP_SECURITY", PyVal.strs ["owasp", "security", "penetration testing", "vulnerability"]),
      ("IDENTITY", PyVal.strs ["iam", "rbac", "sso", "oauth", "openid connect"]),
      ("CRYPTO", PyVal.strs ["encryption", "tls", "ssl", "cryptography", "hashing"]),
      ("NETWORK_SEC", PyVal.strs ["firewall", "vpn", "waf", "ids", "ips"])]),
   ("GAME_DEV", pyNode
     [("ENGINES", PyVal.strs ["unreal", "unity", "godot", "cryengine"]),
      ("GAMEPLAY", PyVal.strs ["gameplay", "physics", "animation", "ai"]),
      ("GRAPHICS", PyVal.strs ["opengl", "directx", "vulkan", "shaders"])]),
   ("EMBEDDED", pyNode
     [("IOT", PyVal.strs ["iot", "arduino", "raspberry pi", "embedded linux"]),
      ("FIRMWARE", PyVal.strs ["firmware", "rtos", "bare metal"]),
      ("DRIVERS", PyVal.strs ["device drivers", "kernel development"])]),
   ("SYSTEM", pyNode
     [("DESIGN", PyVal.strs ["system design", "distributed systems", "microservices",
                             "scalable architectures", "event-driven architecture"]),
      ("TOOLS", PyVal.strs ["powershell", "visual studio", "linux", "cli", "cmake"]),
      ("CONCEPTS", PyVal.strs ["operating system", "networking", "file systems", "multi-threaded"])]),
   ("GENERAL_TECH", pyNode (GENERAL_TECH_CATS.map (fun p => (p.1, PyVal.strs p.2))))]

/-- The `NON_TECHNICAL` subtree of `CATEGORY_HIERARCHY`. -/
def NON_TECHNICAL_TREE : List (String × PyVal) :=
  [("BUSINESS", PyVal.strs ["sales", "negotiation", "client", "customer", "business development", "account management"]),
   ("PROJECT_MGMT", PyVal.strs ["project management", "agile", "scrum", "kanban", "waterfall"]),
   ("ANALYTICS", PyVal.strs ["business intelligence", "power bi", "tableau", "data visualization"]),
   ("OPERATIONS", PyVal.strs ["logistics", "supply chain", "inventory", "warehouse"]),
   ("EDUCATION", pyNode
     [("CERTIFICATION", PyVal.strs ["degree", "certification", "bachelor", "master", "education"]),
      ("TEACHING", PyVal.strs ["teaching", "tutoring", "mentoring", "instruction"])]),
   ("COMMUNICATION", PyVal.strs ["communication", "presentation", "writing", "documentation"]),
   ("LEADERSHIP", PyVal.strs ["leadership", "team building", "mentoring", "coaching"]),
   ("PROBLEM_SOLVING", PyVal.strs ["problem solving", "critical thinking", "analytical"])]

def CATEGORY_HIERARCHY : List (String × PyVal) :=
  [("TECHNICAL", pyNode TECHNICAL_TREE),
   ("NON_TECHNICAL", pyNode NON_TECHNICAL_TREE)]

def MAIN_CATEGORIES : List (String × List String) := flatten_categories TECHNICAL_TREE ""

def NON_TECH_CATEGORIES : List (String × List String) := flatten_categories NON_TECHNICAL_TREE ""

/-- `ALL_CATEGORIES = {**MAIN_CATEGORIES, **NON_TECH_CATEGORIES}` (the keys
of the two dicts are disjoint, so the merge is concatenation; the engine
never reads this global). -/
def ALL_CATEGORIES : List (String × List String) := MAIN_CATEGORIES ++ NON_TECH_CATEGORIES

/-- Python `any(re.search(rf'\b{re.escape(kw)}\b', norm_skill) for kw in keywords)`. -/
def anyKeywordMatches (kws : List String) (n : Str) : Bool :=
  kws.any (fun kw => searchWord kw.data n)

/-- First category of the list whose keywords match, in declaration order. -/
def findCat (cats : List (String × List String)) (n : Str) : Option String :=
  cats.findSome? (fun p => if anyKeywordMatches p.2 n then some p.1 else none)

/-- The source's `determine_primary_category`: normalize, then scan the
flattened technical categories, the flattened non-technical categories, and
the `GENERAL_TECH` subcategories, returning the first match and falling back
to `GENERAL_TECH`. -/
def determine_primary_category (s : Str) : String :=
  let n := normalize_skill s
  match findCat MAIN_CATEGORIES n with
  | some c => c
  | none =>
    match findCat NON_TECH_CATEGORIES n with
    | some c => c
    | none =>
      match findCat GENERAL_TECH_CATS n with
      | some sub => "GENERAL_TECH_" ++ sub
      | none => "GENERAL_TECH"

/-- Insertion-ordered Python dict from strings to lists of strings. -/
abbrev SkillDict := List (Str × List Str)

/-- Python `sorted(set(v))`: the distinct values in ascending lexicographic
order (Python compares strings by code point, which is the `List Char`
lexicographic order). -/
def dedupSort (v : List Str) : List Str :=
  (v.dedup).insertionSort (fun a b : Str => a ≤ b)

/-- `d[k].append(x)` for a key that is present. -/
def appendMember : SkillDict → Str → Str → SkillDict
  | [], _, _ => []
  | (k, v) :: rest, g, x =>
    if k = g then (k, v ++ [x]) :: rest else (k, v) :: appendMember rest g x

/-- `d.setdefault(k, []).extend(vs)`. -/
def setdefaultExtend : SkillDict → Str → List Str → SkillDict
  | [], k, vs => [(k, vs)]
  | (k', v) :: rest, k, vs =>
    if k' = k then (k', v ++ vs) :: rest else (k', v) :: setdefaultExtend rest k vs

/-- `d[k] = v` (replace in place, or insert at the end). -/
def dictAssign : SkillDict → Str → List Str → SkillDict
  | [], k, v => [(k, v)]
  | (k', v') :: rest, k, v =>
    if k' = k then (k, v) :: rest else (k', v') :: dictAssign rest k v

/-- Key of the first existing group whose representative the Similarity
Judge matches (`for group in list(groups): if should_group_together(skill,
group): ...`, scanning keys in creation order). -/
def firstMatchKey (gs : SkillDict) (skill : Str) : Option Str :=
  (gs.find? (fun p => should_group_together skill p.1)).map Prod.fst

/-- One step of the Stage-1 loop body: append the skill to the first
matching group, or start a new singleton group keyed by the skill. -/
def cigStep (gs : SkillDict) (skill : Str) : SkillDict :=
  match firstMatchKey gs skill with
  | some g => appendMember gs g skill
  | none => gs ++ [(skill, [skill])]

/-- The source's `create_initial_groups`: first-fit clustering over the
skills in the order given. -/
def create_initial_groups (skills : List Str) : SkillDict :=
  skills.foldl cigStep []

/-- One step of the Stage-2 loop body: a group below `MIN_GROUP_SIZE` is
merged into the bucket of its representative's primary category; a larger
group keeps its own key. -/
def csStep (acc : SkillDict) (p : Str × List Str) : SkillDict :=
  if p.2.length < MIN_GROUP_SIZE then
    setdefaultExtend acc (determine_primary_category p.1).data p.2
  else dictAssign acc p.1 p.2

/-- The source's `consolidate_groups`; every bucket ends as
`sorted(set(v))`. -/
def consolidate_groups (groups : SkillDict) : SkillDict :=
  (groups.foldl csStep []).map (fun p => (p.1, dedupSort p.2))

/-- One step of the Stage-3 inner loop body: drop a member flagged by the
Discard Filter, otherwise append it to the bucket of its own primary
category. -/
def frStep (acc : SkillDict) (skill : Str) : SkillDict :=
  if should_discard skill then acc
  else setdefaultExtend acc (determine_primary_category skill).data [skill]

/-- The source's `filter_and_reclassify_groups`: re-run the Discard Filter
over every bucket member and re-resolve the survivors individually; every
bucket ends as `sorted(set(v))`. -/
def filter_and_reclassify_groups (groups : SkillDict) : SkillDict :=
  (groups.foldl (fun acc p => p.2.foldl frStep acc) []).map
    (fun p => (p.1, dedupSort p.2))

/-- The three-stage engine run of `main` on an extracted skill list. -/
def pipeline (skills : List Str) : SkillDict :=
  filter_and_reclassify_groups (consolidate_groups (create_initial_groups skills))

/-- Lookup in the dict model (`d.get(k)`). -/
def dictGet (m : SkillDict) (k : Str) : Option (List Str) :=
  (m.find? (fun p => p.1 = k)).map Prod.snd

/-- Concatenation of all bucket member lists. -/
def flatVals (m : SkillDict) : List Str := m.flatMap Prod.snd

theorem wordAtPos_cons_succ (c : Char) (t : Str) (j : Nat) :
    wordAtPos (c :: t) (j + 1) = wordAtPos t j := by
  simp [wordAtPos]

theorem wordAtPos_cons_zero (c : Char) (t : Str) :
    wordAtPos (c :: t) 0 = isWordChar c := by
  simp [wordAtPos]

theorem boundaryAt_cons_succ (c : Char) (t : Str) (i : Nat)
    (hc : isWordChar c = false) : boundaryAt (c :: t) (i + 1) = boundaryAt t i := by
  cases i with
  | zero => simp [boundaryAt, wordAtPos_cons_succ, wordAtPos_cons_zero, hc]
  | succ j => simp [boundaryAt, wordAtPos_cons_succ]

theorem boundary_exists (s : Str) (h : s.any isWordChar = true) :
    ∃ i, i ≤ s.length ∧ boundaryAt s i = true := by
  induction s with
  | nil => simp at h
  | cons c t ih =>
    by_cases hc : isWordChar c = true
    · exact ⟨0, Nat.zero_le _, by simp [boundaryAt, wordAtPos_cons_zero, hc]⟩
    · have hc' : isWordChar c = false := by simpa using hc
      have ht : t.any isWordChar = true := by
        rcases List.any_eq_true.mp h with ⟨x, hx, hpx⟩
        rcases List.mem_cons.mp hx with rfl | hx'
        · exact absurd hpx (by simp [hc'])
        · exact List.any_eq_true.mpr ⟨x, hx', hpx⟩
      obtain ⟨i, hi, hb⟩ := ih ht
      exact ⟨i + 1, Nat.succ_le_succ (by simpa using hi),
        by rw [boundaryAt_cons_succ _ _ _ hc']; exact hb⟩

/-- An empty pattern `\b\b` matches any subject containing a word
character (at the first boundary). -/
theorem searchWord_nil (s : Str) (h : s.any isWordChar = true) :
    searchWord [] s = true := by
  obtain ⟨i, hi, hb⟩ := boundary_exists s h
  refine (List.any_eq_true).mpr ⟨i, ?_, ?_⟩
  · exact List.mem_range.mpr (by omega)
  · simp [matchWordAt, hb]

/-- C3 (counterexample): the Normalizer is not idempotent.  The alias
substitution maps `devops` to `ci/cd`, reintroducing a `/` that a second
pass turns into a space, so `normalize_skill "devops" = "ci/cd"` while
`normalize_skill (normalize_skill "devops") = "ci cd"`. -/
theorem normalize_idem_counterexample :
    normalize_skill (lit "devops") = lit "ci/cd" ∧
    normalize_skill (normalize_skill (lit "devops")) = lit "ci cd" ∧
    normalize_skill (normalize_skill (lit "devops")) ≠ normalize_skill (lit "devops") := by
  decide

/-- C8 (counterexample): an empty normalized key does not make the
Similarity Judge return false.  `normalize_skill "!!!"` is empty, and the
resulting containment pattern `\b\b` matches `"x"`, so
`should_group_together "!!!" "x"` is true, where the claim says it must be
false. -/
theorem empty_key_counterexample :
    normalize_skill (lit "!!!") = [] ∧
    should_group_together (lit "!!!") (lit "x") = true := by decide

/-- C8 (amended): when either normalized key is empty the Similarity Judge
returns true rather than false: with both keys empty the equality rule
fires, and with exactly one key empty the containment pattern degenerates
to `\b\b`, which matches as soon as the other key contains a word
character. -/
theorem empty_key_amended (a b : Str)
    (h : normalize_skill a = [] ∨ normalize_skill b = [])
    (hw : normalize_skill a = normalize_skill b ∨
      (normalize_skill a).any isWordChar = true ∨
      (normalize_skill b).any isWordChar = true) :
    should_group_together a b = true := by
  simp only [should_group_together]
  rcases hw with heq | hwa | hwb
  · simp [heq]
  · rcases h with ha | hb
    · rw [ha] at hwa; simp at hwa
    · have hsw : searchWord (normalize_skill b) (normalize_skill a) = true := by
        rw [hb]; exact searchWord_nil _ hwa
      simp [hsw]
  · rcases h with ha | hb
    · have hsw : searchWord (normalize_skill a) (normalize_skill b) = true := by
        rw [ha]; exact searchWord_nil _ hwb
      simp [hsw]
    · rw [hb] at hwb; simp at hwb

/-- Witness for the amended C8 theorem at `a = "!!!"`, `b = "x"`. -/
theorem empty_key_amended_witness :
    should_group_together (lit "!!!") (lit "x") = true :=
  empty_key_amended (lit "!!!") (lit "x") (Or.inl (by decide))
    (Or.inr (Or.inr (by decide)))

/-- C7 (counterexample): the length gate of the prefix rule is 5, not 6.
The normalized keys of `"abcdef"` and `"abcdqr"` have length 6, share the
4-character slice `abcd`, have similarity ratio `2*4/12 < 0.8`, and
`should_group_together` returns false, where the claim (with its `≤ 6`
gate) says it must return true. -/
theorem prefix_rule_counterexample :
    (normalize_skill (lit "abcdef")).length = 6 ∧
    (normalize_skill (lit "abcdqr")).length = 6 ∧
    (normalize_skill (lit "abcdef")).take 4 = (normalize_skill (lit "abcdqr")).take 4 ∧
    ratioAtLeast (normalize_skill (lit "abcdef")) (normalize_skill (lit "abcdqr")) = false ∧
    should_group_together (lit "abcdef") (lit "abcdqr") = false := by decide

/-- C7 (amended): the prefix rule of `should_group_together` is gated at
normalized length 5: equal 4-character slices force a true answer when both
normalized keys have length at most 5, and for keys of length 6 or more the
prefix rule never fires, so a true answer must come from key equality,
word-boundary containment, or a similarity ratio of at least 0.8. -/
theorem prefix_rule_amended (a b : Str) :
    ((normalize_skill a).take 4 = (normalize_skill b).take 4 →
      (normalize_skill a).length ≤ 5 → (normalize_skill b).length ≤ 5 →
      should_group_together a b = true) ∧
    (6 ≤ (normalize_skill a).length → 6 ≤ (normalize_skill b).length →
      should_group_together a b = true →
      (normalize_skill a = normalize_skill b ∨
        searchWord (normalize_skill a) (normalize_skill b) = true ∨
        searchWord (normalize_skill b) (normalize_skill a) = true ∨
        ratioAtLeast (normalize_skill a) (normalize_skill b) = true)) := by
  constructor
  · intro hpre h5a h5b
    simp only [should_group_together]
    by_cases h1 : (normalize_skill a == normalize_skill b ||
        searchWord (normalize_skill a) (normalize_skill b) ||
        searchWord (normalize_skill b) (normalize_skill a)) = true
    · simp [h1]
    · have h2 : ((normalize_skill a).take 4 == (normalize_skill b).take 4 &&
          decide ((normalize_skill a).length ≤ 5) &&
          decide ((normalize_skill b).length ≤ 5)) = true := by
        simp [hpre, h5a, h5b]
      simp [h1, h2]
  · intro h6a h6b h
    simp only [should_group_together] at h
    have h2 : ((normalize_skill a).take 4 == (normalize_skill b).take 4 &&
        decide ((normalize_skill a).length ≤ 5) &&
        decide ((normalize_skill b).length ≤ 5)) = false := by
      have hna : ¬ ((normalize_skill a).length ≤ 5) := by omega
      simp [hna]
    by_cases h1 : (normalize_skill a == normalize_skill b ||
        searchWord (normalize_skill a) (normalize_skill b) ||
        searchWord (normalize_skill b) (normalize_skill a)) = true
    · rcases Bool.or_eq_true_iff.mp h1 with h' | h'
      · rcases Bool.or_eq_true_iff.mp h' with h'' | h''
        · exact Or.inl (beq_iff_eq.mp h'')
        · exact Or.inr (Or.inl h'')
      · exact Or.inr (Or.inr (Or.inl h'))
    · rw [if_neg h1, if_neg (by simp [h2])] at h
      exact Or.inr (Or.inr (Or.inr h))

/-- Witness for the amended C7 theorem: the short pair `"abcde"`/`"abcdz"`
(length 5, equal slice) is grouped. -/
theorem prefix_rule_amended_witness :
    should_group_together (lit "abcde") (lit "abcdz") = true :=
  (prefix_rule_amended (lit "abcde") (lit "abcdz")).1 (by decide) (by decide) (by decide)

theorem findCat_eq_none {cats : List (String × List String)} {n : Str} :
    findCat cats n = none ↔ ∀ p ∈ cats, anyKeywordMatches p.2 n = false := by
  rw [findCat, List.findSome?_eq_none_iff]
  constructor
  · intro h p hp
    have hx := h p hp
    by_cases hm : anyKeywordMatches p.2 n = true
    · simp [hm] at hx
    · simpa using hm
  · intro h p hp
    simp [h p hp]

/-- Every `GENERAL_TECH` subcategory keyword list reappears, with the
prefixed path, inside the flattened `MAIN_CATEGORIES`. -/
theorem generalTech_mem_main :
    ∀ p ∈ GENERAL_TECH_CATS, ("GENERAL_TECH_" ++ p.1, p.2) ∈ MAIN_CATEGORIES := by
  decide

/-- C4: the Taxonomy Matcher is total by construction in this embedding,
and whenever no technical-category keyword and no non-technical keyword
matches the normalized skill as a whole word, it returns the fixed fallback
`GENERAL_TECH` (the fallback loop over the `GENERAL_TECH` subcategories
cannot fire either, because those keyword lists are all contained in
`MAIN_CATEGORIES`). -/
theorem determine_primary_category_fallback (s : Str)
    (h1 : ∀ p ∈ MAIN_CATEGORIES, anyKeywordMatches p.2 (normalize_skill s) = false)
    (h2 : ∀ p ∈ NON_TECH_CATEGORIES, anyKeywordMatches p.2 (normalize_skill s) = false) :
    determine_primary_category s = "GENERAL_TECH" := by
  have hm : findCat MAIN_CATEGORIES (normalize_skill s) = none := findCat_eq_none.mpr h1
  have hn : findCat NON_TECH_CATEGORIES (normalize_skill s) = none := findCat_eq_none.mpr h2
  have hg : findCat GENERAL_TECH_CATS (normalize_skill s) = none := by
    refine findCat_eq_none.mpr ?_
    intro p hp
    exact h1 ("GENERAL_TECH_" ++ p.1, p.2) (generalTech_mem_main p hp)
  simp only [determine_primary_category, hm, hn, hg]

/-- Witness for the C4 theorem at a string matching nothing. -/
theorem determine_primary_category_fallback_witness :
    determine_primary_category (lit "qqqq zz") = "GENERAL_TECH" :=
  determine_primary_category_fallback (lit "qqqq zz") (by decide) (by decide)

/-- Modelled from the claim (C10): `determine_primary_category` with its
third loop (over the `GENERAL_TECH` subcategories) omitted, returning the
bare fallback as soon as the first two loops fail. -/
def determine_primary_category_simplified (s : Str) : String :=
  let n := normalize_skill s
  match findCat MAIN_CATEGORIES n with
  | some c => c
  | none =>
    match findCat NON_TECH_CATEGORIES n with
    | some c => c
    | none => "GENERAL_TECH"

/-- C10: the fallback loop of `determine_primary_category` is dead code:
its keyword lists all occur in `MAIN_CATEGORIES`, so it can never match
when the first loop did not, and the function is extensionally equal to the
simplified version without it. -/
theorem determine_simplified_equiv (s : Str) :
    determine_primary_category s = determine_primary_category_simplified s := by
  simp only [determine_primary_category, determine_primary_category_simplified]
  cases hm : findCat MAIN_CATEGORIES (normalize_skill s) with
  | some c => simp [hm]
  | none =>
    cases hn : findCat NON_TECH_CATEGORIES (normalize_skill s) with
    | some c => simp [hm, hn]
    | none =>
      have hg : findCat GENERAL_TECH_CATS (normalize_skill s) = none := by
        refine findCat_eq_none.mpr ?_
        intro p hp
        exact (findCat_eq_none.mp hm) ("GENERAL_TECH_" ++ p.1, p.2) (generalTech_mem_main p hp)
      simp [hm, hn, hg]

theorem findCat_eq_of_first_match {n : Str} :
    ∀ (cats : List (String × List String)) (k : Nat) (c : String) (kws : List String),
      cats[k]? = some (c, kws) →
      anyKeywordMatches kws n = true →
      (∀ j, j < k → ∀ p : String × List String, cats[j]? = some p →
        anyKeywordMatches p.2 n = false) →
      findCat cats n = some c := by
  intro cats
  induction cats with
  | nil => intro k c kws hk; simp at hk
  | cons q rest ih =>
    intro k c kws hk hmatch hbefore
    cases k with
    | zero =>
      simp only [List.getElem?_cons_zero, Option.some.injEq] at hk
      subst hk
      simp [findCat, List.findSome?_cons, hmatch]
    | succ j =>
      have hq : anyKeywordMatches q.2 n = false :=
        hbefore 0 (Nat.succ_pos j) q (by simp)
      have hrest : findCat rest n = some c := by
        apply ih j c kws (by simpa using hk) hmatch
        intro j' hj' p hp
        exact hbefore (j' + 1) (Nat.succ_lt_succ hj') p (by simpa using hp)
      simpa [findCat, List.findSome?_cons, hq] using hrest

/-- C6 (counterexample): a skill containing both `python` and `tensorflow`
as whole words is classified by the `python` keyword of the earlier
`PROGRAMMING_PYTHON_ECOSYSTEM` branch, not by the ML branch: the flattening
order puts `PROGRAMMING` before `ML_AI`, where the claim requires the
domain-specific ML branch to win. -/
theorem taxonomy_priority_counterexample :
    searchWord (lit "python") (normalize_skill (lit "python tensorflow")) = true ∧
    searchWord (lit "tensorflow") (normalize_skill (lit "python tensorflow")) = true ∧
    determine_primary_category (lit "python tensorflow") = "PROGRAMMING_PYTHON_ECOSYSTEM" ∧
    determine_primary_category (lit "python tensorflow") ≠ "ML_AI_MACHINE_LEARNING" := by
  decide

/-- C6 (amended): `determine_primary_category` consults the flattened
hierarchy in declaration order, in which the generic
`PROGRAMMING_PYTHON_ECOSYSTEM` branch precedes `ML_AI`: for every string
whose normalized form contains `python` (and in the claim's scenario also
`tensorflow`) as a whole word and matches no keyword of the two branches
declared before it (`.NET` and `JAVA_ECOSYSTEM`), the result is
`PROGRAMMING_PYTHON_ECOSYSTEM` — the `python` match shadows `tensorflow`,
the opposite of the claimed priority. -/
theorem taxonomy_priority_amended (s : Str)
    (h0 : anyKeywordMatches ["dotnet", "csharp", "aspdotnet", "vbnet", "wpf",
      "winforms", "entityframework"] (normalize_skill s) = false)
    (h1 : anyKeywordMatches ["java", "spring", "spring boot", "hibernate",
      "j2ee", "jakarta ee"] (normalize_skill s) = false)
    (hpy : searchWord (lit "python") (normalize_skill s) = true)
    (_htf : searchWord (lit "tensorflow") (normalize_skill s) = true) :
    determine_primary_category s = "PROGRAMMING_PYTHON_ECOSYSTEM" := by
  have e0 : MAIN_CATEGORIES[0]? = some ("PROGRAMMING_.NET",
      ["dotnet", "csharp", "aspdotnet", "vbnet", "wpf", "winforms", "entityframework"]) := by
    decide
  have e1 : MAIN_CATEGORIES[1]? = some ("PROGRAMMING_JAVA_ECOSYSTEM",
      ["java", "spring", "spring boot", "hibernate", "j2ee", "jakarta ee"]) := by decide
  have e2 : MAIN_CATEGORIES[2]? = some ("PROGRAMMING_PYTHON_ECOSYSTEM",
      ["python", "django", "flask", "fastapi", "numpy", "pandas"]) := by decide
  have hmatch : anyKeywordMatches ["python", "django", "flask", "fastapi",
      "numpy", "pandas"] (normalize_skill s) = true :=
    List.any_eq_true.mpr ⟨"python", by simp, hpy⟩
  have hfind : findCat MAIN_CATEGORIES (normalize_skill s) =
      some "PROGRAMMING_PYTHON_ECOSYSTEM" := by
    apply findCat_eq_of_first_match MAIN_CATEGORIES 2 _ _ e2 hmatch
    intro j hj p hp
    have hcase : j = 0 ∨ j = 1 := by omega
    rcases hcase with rfl | rfl
    · rw [e0] at hp; injection hp with hp'; subst hp'; exact h0
    · rw [e1] at hp; injection hp with hp'; subst hp'; exact h1
  simp only [determine_primary_category, hfind]

/-- Witness for the amended C6 theorem at `"python tensorflow"`. -/
theorem taxonomy_priority_amended_witness :
    determine_primary_category (lit "python tensorflow") = "PROGRAMMING_PYTHON_ECOSYSTEM" :=
  taxonomy_priority_amended (lit "python tensorflow") (by decide) (by decide)
    (by decide) (by decide)

/-- C5 (counterexample): the Discard Filter's phrase list is only
`["years of experience", "experience with", "knowledge of",
"understanding of"]`; it contains neither `bachelor` nor `degree`, and the
cleaned string `"bachelor's degree required"`, which contains both words,
is not discarded — where the claim says any cleaned string containing them
must be. -/
theorem discard_filter_counterexample :
    containsSub (lit "bachelor") ((lit "bachelor's degree required").map Char.toLower) = true ∧
    containsSub (lit "degree") ((lit "bachelor's degree required").map Char.toLower) = true ∧
    should_discard (lit "bachelor's degree required") = false := by decide

/-- C5 (amended): the Discard Filter discards any string containing one of
the four phrases of `DISCARD_PHRASES` (which include neither `bachelor` nor
`degree`).  On the claim's scenario input, `"5+ years of experience"` is
discarded by the experience pattern but `"Bachelor's degree required"`
survives, and the pipeline's final map is not empty: it is the single
bucket `EDUCATION_CERTIFICATION ↦ ["Bachelor's degree required"]`. -/
theorem discard_phrases_amended :
    (∀ s : Str, ∀ p ∈ DISCARD_PHRASES,
      containsSub p.data (s.map Char.toLower) = true → should_discard s = true) ∧
    should_discard (lit "5+ years of experience") = true ∧
    should_discard (lit "Bachelor's degree required") = false ∧
    pipeline [lit "5+ years of experience", lit "Bachelor's degree required"] =
      [(lit "EDUCATION_CERTIFICATION", [lit "Bachelor's degree required"])] := by
  refine ⟨?_, by decide, by decide, ?_⟩
  · intro s p hp hcont
    simp only [should_discard]
    by_cases h1 : ((stripPy s).length < 2 || 6 < wordCount s) = true
    · simp [h1]
    · by_cases h2 : expSearch s = true
      · simp [h1, h2]
      · have hany : DISCARD_PHRASES.any
            (fun q => containsSub q.data (s.map Char.toLower)) = true :=
          List.any_eq_true.mpr ⟨p, hp, hcont⟩
        simp [h1, h2, hany]
  · have h1 : create_initial_groups
        [lit "5+ years of experience", lit "Bachelor's degree required"] =
        [(lit "5+ years of experience", [lit "5+ years of experience"]),
         (lit "Bachelor's degree required", [lit "Bachelor's degree required"])] := by
      decide
    have h2 : consolidate_groups
        [(lit "5+ years of experience", [lit "5+ years of experience"]),
         (lit "Bachelor's degree required", [lit "Bachelor's degree required"])] =
        [(lit "GENERAL_TECH", [lit "5+ years of experience"]),
         (lit "EDUCATION_CERTIFICATION", [lit "Bachelor's degree required"])] := by
      decide
    have h3 : filter_and_reclassify_groups
        [(lit "GENERAL_TECH", [lit "5+ years of experience"]),
         (lit "EDUCATION_CERTIFICATION", [lit "Bachelor's degree required"])] =
        [(lit "EDUCATION_CERTIFICATION", [lit "Bachelor's degree required"])] := by
      decide
    rw [pipeline, h1, h2, h3]

/-- Witness for the amended C5 theorem: a string containing the phrase
`years of experience` is discarded. -/
theorem discard_phrases_amended_witness :
    should_discard (lit "has years of experience here") = true :=
  discard_phrases_amended.1 (lit "has years of experience here")
    "years of experience" (by decide) (by decide)

theorem firstMatchKey_some {gs : SkillDict} {s g : Str}
    (h : firstMatchKey gs s = some g) :
    (∃ v, (g, v) ∈ gs) ∧ should_group_together s g = true := by
  rcases Option.map_eq_some'.mp h with ⟨p, hfind, hfst⟩
  subst hfst
  have hpred := List.find?_some hfind
  exact ⟨⟨p.2, List.mem_of_find?_eq_some hfind⟩, by simpa using hpred⟩

theorem firstMatchKey_none {gs : SkillDict} {s : Str}
    (h : firstMatchKey gs s = none) :
    ∀ p ∈ gs, should_group_together s p.1 = false := by
  intro p hp
  have := List.find?_eq_none.mp (Option.map_eq_none'.mp h) p hp
  simpa using this

/-- The Similarity Judge accepts every string against itself (rule 1). -/
theorem should_group_together_refl (s : Str) :
    should_group_together s s = true := by
  simp [should_group_together]

theorem keys_appendMember (gs : SkillDict) (g x : Str) :
    (appendMember gs g x).map Prod.fst = gs.map Prod.fst := by
  induction gs with
  | nil => rfl
  | cons p rest ih =>
    obtain ⟨k, v⟩ := p
    by_cases hk : k = g
    · simp [appendMember, hk]
    · simp [appendMember, hk, ih]

theorem flatVals_append (m₁ m₂ : SkillDict) :
    flatVals (m₁ ++ m₂) = flatVals m₁ ++ flatVals m₂ := by
  simp [flatVals]

theorem flatVals_appendMember {gs : SkillDict} {g : Str} (x : Str)
    (h : ∃ v, (g, v) ∈ gs) :
    (flatVals (appendMember gs g x)).Perm (flatVals gs ++ [x]) := by
  induction gs with
  | nil => simp at h
  | cons p rest ih =>
    obtain ⟨k, v⟩ := p
    by_cases hk : k = g
    · subst hk
      have e : appendMember ((k, v) :: rest) k x = (k, v ++ [x]) :: rest := by
        simp [appendMember]
      rw [e]
      simp only [flatVals, List.flatMap_cons]
      rw [List.append_assoc, List.append_assoc]
      exact List.Perm.append_left v List.perm_append_comm
    · have h' : ∃ v', (g, v') ∈ rest := by
        rcases h with ⟨v', hv'⟩
        rcases List.mem_cons.mp hv' with heq | hmem
        · exact absurd (congrArg Prod.fst heq).symm hk
        · exact ⟨v', hmem⟩
      simp only [appendMember, if_neg hk, flatVals, List.flatMap_cons]
      rw [List.append_assoc]
      exact List.Perm.append_left v (by simpa [flatVals] using ih h')

theorem flatVals_cigStep (gs : SkillDict) (s : Str) :
    (flatVals (cigStep gs s)).Perm (flatVals gs ++ [s]) := by
  cases hm : firstMatchKey gs s with
  | some g =>
    simp only [cigStep, hm]
    exact flatVals_appendMember s (firstMatchKey_some hm).1
  | none =>
    simp only [cigStep, hm]
    rw [flatVals_append]
    simp [flatVals]

theorem flatVals_foldl_cigStep (l : List Str) (gs : SkillDict) :
    (flatVals (l.foldl cigStep gs)).Perm (flatVals gs ++ l) := by
  induction l generalizing gs with
  | nil => simp
  | cons s rest ih =>
    have e1 : (s :: rest).foldl cigStep gs = rest.foldl cigStep (cigStep gs s) := rfl
    rw [e1]
    refine (ih (cigStep gs s)).trans ?_
    refine (((flatVals_cigStep gs s).append_right rest)).trans ?_
    exact List.Perm.of_eq (by simp)

/-- Invariant of Stage 1: every group's key is its first member (the
representative), and every member is the representative itself or was
accepted against it by the Similarity Judge. -/
def GroupsInv (gs : SkillDict) : Prop :=
  ∀ p ∈ gs, p.2.head? = some p.1 ∧
    ∀ x ∈ p.2, x = p.1 ∨ should_group_together x p.1 = true

theorem groupsInv_appendMember {gs : SkillDict} {g s : Str}
    (hinv : GroupsInv gs) (hsg : should_group_together s g = true) :
    GroupsInv (appendMember gs g s) := by
  induction gs with
  | nil => intro p hp; simp [appendMember] at hp
  | cons q rest ih =>
    obtain ⟨k, v⟩ := q
    intro p hp
    by_cases hk : k = g
    · subst hk
      have e : appendMember ((k, v) :: rest) k s = (k, v ++ [s]) :: rest := by
        simp [appendMember]
      rw [e] at hp
      rcases List.mem_cons.mp hp with rfl | hmem
      · have hq := hinv (k, v) (by simp)
        refine ⟨?_, ?_⟩
        · have h1 := hq.1
          rcases v with _ | ⟨c, v'⟩
          · simp at h1
          · simpa using h1
        · intro x hx
          rcases List.mem_append.mp hx with hxv | hxs
          · exact hq.2 x hxv
          · rcases List.mem_singleton.mp hxs with rfl
            exact Or.inr hsg
      · exact hinv p (List.mem_cons_of_mem _ hmem)
    · have e : appendMember ((k, v) :: rest) g s = (k, v) :: appendMember rest g s := by
        simp [appendMember, hk]
      rw [e] at hp
      rcases List.mem_cons.mp hp with rfl | hmem
      · exact hinv (k, v) (by simp)
      · exact ih (fun q hq => hinv q (List.mem_cons_of_mem _ hq)) p hmem

theorem groupsInv_cigStep {gs : SkillDict} (s : Str) (hinv : GroupsInv gs) :
    GroupsInv (cigStep gs s) := by
  cases hm : firstMatchKey gs s with
  | some g =>
    simp only [cigStep, hm]
    exact groupsInv_appendMember hinv (firstMatchKey_some hm).2
  | none =>
    simp only [cigStep, hm]
    intro p hp
    rcases List.mem_append.mp hp with hmem | hnew
    · exact hinv p hmem
    · rcases List.mem_singleton.mp hnew with rfl
      exact ⟨rfl, fun x hx => by
        rcases List.mem_singleton.mp hx with rfl; exact Or.inl rfl⟩

theorem groupsInv_foldl (l : List Str) (gs : SkillDict) (hinv : GroupsInv gs) :
    GroupsInv (l.foldl cigStep gs) := by
  induction l generalizing gs with
  | nil => exact hinv
  | cons s rest ih => exact ih _ (groupsInv_cigStep s hinv)

def keysOf (m : SkillDict) : List Str := m.map Prod.fst

theorem keys_cigStep {gs : SkillDict} (s : Str) :
    keysOf (cigStep gs s) = keysOf gs ∨ keysOf (cigStep gs s) = keysOf gs ++ [s] := by
  cases hm : firstMatchKey gs s with
  | some g =>
    left
    simp only [cigStep, hm, keysOf]
    exact keys_appendMember gs g s
  | none =>
    right
    simp [cigStep, hm, keysOf]

theorem keys_cigStep_nodup {gs : SkillDict} (s : Str)
    (h : (keysOf gs).Nodup) : (keysOf (cigStep gs s)).Nodup := by
  cases hm : firstMatchKey gs s with
  | some g =>
    simp only [cigStep, hm, keysOf]
    rw [keys_appendMember]
    exact h
  | none =>
    simp only [cigStep, hm, keysOf, List.map_append]
    refine List.Nodup.append h (List.nodup_singleton s) ?_
    intro a ha hb
    simp only [List.map_cons, List.map_nil, List.mem_singleton] at hb
    subst hb
    rcases List.mem_map.mp ha with ⟨p, hp, hfst⟩
    have hfalse := firstMatchKey_none hm p hp
    rw [hfst] at hfalse
    exact absurd (should_group_together_refl a) (by simp [hfalse])

theorem keys_foldl_nodup (l : List Str) (gs : SkillDict)
    (h : (keysOf gs).Nodup) : (keysOf (l.foldl cigStep gs)).Nodup := by
  induction l generalizing gs with
  | nil => exact h
  | cons s rest ih => exact ih _ (keys_cigStep_nodup s h)

theorem keys_foldl_sub (l : List Str) (gs : SkillDict) :
    ∀ k ∈ keysOf (l.foldl cigStep gs), k ∈ keysOf gs ∨ k ∈ l := by
  induction l generalizing gs with
  | nil => intro k hk; exact Or.inl hk
  | cons s rest ih =>
    intro k hk
    rcases ih (cigStep gs s) k hk with hstep | hrest
    · rcases @keys_cigStep gs s with he | he
      · rw [he] at hstep; exact Or.inl hstep
      · rw [he] at hstep
        rcases List.mem_append.mp hstep with h' | h'
        · exact Or.inl h'
        · rcases List.mem_singleton.mp h' with rfl
          exact Or.inr (by simp)
    · exact Or.inr (List.mem_cons_of_mem _ hrest)

/-- Modelled from the spec (§4.6, Stage 1) for the refinement comparison of
C9: the same first-fit loop, but over the skills sorted longest-first, as
the claim describes ("iterates the input skills sorted by descending string
length"). -/
def create_initial_groups_spec (skills : List Str) : SkillDict :=
  (skills.insertionSort (fun a b => b.length ≤ a.length)).foldl cigStep []

/-- C9 (counterexample): `create_initial_groups` does not sort the skills
by descending length — it processes them in the given order.  On
`["react", "react native"]` the code keys the single group by `"react"`
(the first skill seen), while the longest-first variant described by the
claim keys it by `"react native"`. -/
theorem initial_groups_order_counterexample :
    create_initial_groups [lit "react", lit "react native"] =
      [(lit "react", [lit "react", lit "react native"])] ∧
    create_initial_groups_spec [lit "react", lit "react native"] =
      [(lit "react native", [lit "react native", lit "react"])] ∧
    create_initial_groups [lit "react", lit "react native"] ≠
      create_initial_groups_spec [lit "react", lit "react native"] := by decide

/-- C9 (amended): Stage 1 processes the skills in the order of the input
list (no longest-first sort); for each skill it scans the existing groups
in creation order, appending to the first group whose representative the
Similarity Judge accepts and otherwise starting a new singleton group whose
key is the skill itself.  Consequently the group members partition the
input (up to permutation), every group's key is its first member, every
member was accepted against its representative, and the group keys are
distinct. -/
theorem initial_groups_first_fit_amended (l : List Str) :
    (flatVals (create_initial_groups l)).Perm l ∧
    (keysOf (create_initial_groups l)).Nodup ∧
    ∀ p ∈ create_initial_groups l, p.2.head? = some p.1 ∧
      ∀ x ∈ p.2, x = p.1 ∨ should_group_together x p.1 = true := by
  refine ⟨?_, ?_, ?_⟩
  · have h := flatVals_foldl_cigStep l []
    simpa [create_initial_groups, flatVals] using h
  · exact keys_foldl_nodup l [] (by simp [keysOf])
  · exact groupsInv_foldl l [] (fun p hp => by simp at hp)

/-- Witness for the amended C9 theorem: the partition property at the
counterexample input. -/
theorem initial_groups_first_fit_amended_witness :
    (flatVals (create_initial_groups [lit "react", lit "react native"])).Perm
      [lit "react", lit "react native"] :=
  (initial_groups_first_fit_amended [lit "react", lit "react native"]).1

theorem mem_flatVals {m : SkillDict} {x : Str} :
    x ∈ flatVals m ↔ ∃ p ∈ m, x ∈ p.2 := by
  simp [flatVals]

theorem flatVals_cons (p : Str × List Str) (rest : SkillDict) :
    flatVals (p :: rest) = p.2 ++ flatVals rest := by
  simp [flatVals]

theorem sde_cons_eq {a k : Str} (v : List Str) (rest : SkillDict)
    (vs : List Str) (h : a = k) :
    setdefaultExtend ((a, v) :: rest) k vs = (a, v ++ vs) :: rest := by
  simp [setdefaultExtend, h]

theorem sde_cons_ne {a k : Str} (v : List Str) (rest : SkillDict)
    (vs : List Str) (h : a ≠ k) :
    setdefaultExtend ((a, v) :: rest) k vs = (a, v) :: setdefaultExtend rest k vs := by
  simp [setdefaultExtend, h]

theorem sde_nil (k : Str) (vs : List Str) :
    setdefaultExtend [] k vs = [(k, vs)] := rfl

theorem dictGet_nil (k : Str) : dictGet [] k = none := rfl

theorem dictGet_cons_eq {a k : Str} (v : List Str) (rest : SkillDict)
    (h : a = k) : dictGet ((a, v) :: rest) k = some v := by
  subst h
  simp [dictGet, List.find?_cons_of_pos]

theorem dictGet_cons_ne {a k : Str} (v : List Str) (rest : SkillDict)
    (h : a ≠ k) : dictGet ((a, v) :: rest) k = dictGet rest k := by
  unfold dictGet
  rw [List.find?_cons_of_neg]
  simpa using h

theorem sde_flatVals_mem (m : SkillDict) (k : Str) (vs : List Str) (x : Str) :
    x ∈ flatVals (setdefaultExtend m k vs) ↔ x ∈ flatVals m ∨ x ∈ vs := by
  induction m with
  | nil => simp [sde_nil, flatVals]
  | cons p rest ih =>
    obtain ⟨a, v⟩ := p
    by_cases ha : a = k
    · rw [sde_cons_eq v rest vs ha, flatVals_cons, flatVals_cons]
      simp only [List.mem_append]
      tauto
    · rw [sde_cons_ne v rest vs ha, flatVals_cons, flatVals_cons]
      simp only [List.mem_append]
      rw [ih]
      tauto

theorem sde_keys_mem (m : SkillDict) (k : Str) (vs : List Str) (k' : Str) :
    k' ∈ keysOf (setdefaultExtend m k vs) ↔ k' ∈ keysOf m ∨ k' = k := by
  induction m with
  | nil => simp [sde_nil, keysOf]
  | cons p rest ih =>
    obtain ⟨a, v⟩ := p
    by_cases ha : a = k
    · subst ha
      rw [sde_cons_eq v rest vs rfl]
      simp only [keysOf, List.map_cons, List.mem_cons]
      tauto
    · rw [sde_cons_ne v rest vs ha]
      simp only [keysOf, List.map_cons, List.mem_cons]
      have ih' := ih
      simp only [keysOf] at ih'
      rw [ih']
      tauto

theorem sde_keys_nodup (m : SkillDict) (k : Str) (vs : List Str)
    (h : (keysOf m).Nodup) : (keysOf (setdefaultExtend m k vs)).Nodup := by
  induction m with
  | nil => simp [sde_nil, keysOf]
  | cons p rest ih =>
    obtain ⟨a, v⟩ := p
    simp only [keysOf, List.map_cons, List.nodup_cons] at h
    by_cases ha : a = k
    · subst ha
      rw [sde_cons_eq v rest vs rfl]
      simp only [keysOf, List.map_cons, List.nodup_cons]
      exact h
    · rw [sde_cons_ne v rest vs ha]
      simp only [keysOf, List.map_cons, List.nodup_cons]
      refine ⟨?_, ih h.2⟩
      intro hmem
      rcases (sde_keys_mem rest k vs a).mp hmem with h' | h'
      · exact h.1 h'
      · exact ha h'

theorem dictGet_eq_none_iff (m : SkillDict) (k : Str) :
    dictGet m k = none ↔ k ∉ keysOf m := by
  simp only [dictGet, Option.map_eq_none', List.find?_eq_none, keysOf,
    List.mem_map]
  constructor
  · rintro h ⟨p, hp, rfl⟩
    exact (h p hp) (by simp)
  · intro h p hp
    simp only [decide_eq_true_eq]
    intro heq
    exact h ⟨p, hp, heq⟩

theorem dictGet_of_mem_nodup {m : SkillDict} (hnd : (keysOf m).Nodup)
    {k : Str} {v : List Str} (h : (k, v) ∈ m) : dictGet m k = some v := by
  induction m with
  | nil => simp at h
  | cons p rest ih =>
    obtain ⟨a, w⟩ := p
    simp only [keysOf, List.map_cons, List.nodup_cons] at hnd
    rcases List.mem_cons.mp h with heq | hmem
    · injection heq with h1 h2
      subst h1; subst h2
      exact dictGet_cons_eq _ _ rfl
    · by_cases ha : a = k
      · subst ha
        exact absurd (List.mem_map.mpr ⟨(a, v), hmem, rfl⟩) hnd.1
      · rw [dictGet_cons_ne _ _ ha]
        exact ih hnd.2 hmem

theorem sde_dictGet (m : SkillDict) (k : Str) (vs : List Str) (k' : Str) :
    dictGet (setdefaultExtend m k vs) k' =
      if k' = k then some ((dictGet m k).getD [] ++ vs) else dictGet m k' := by
  induction m with
  | nil =>
    rw [sde_nil]
    by_cases hk : k' = k
    · subst hk
      rw [dictGet_cons_eq _ _ rfl]
      simp [dictGet_nil]
    · rw [dictGet_cons_ne _ _ (fun h => hk h.symm), dictGet_nil]
      simp [hk]
  | cons p rest ih =>
    obtain ⟨a, v⟩ := p
    by_cases ha : a = k
    · subst ha
      rw [sde_cons_eq v rest vs rfl]
      by_cases hk : k' = a
      · subst hk
        rw [dictGet_cons_eq _ _ rfl, if_pos rfl, dictGet_cons_eq _ _ rfl]
        simp
      · rw [dictGet_cons_ne _ _ (fun h => hk h.symm), if_neg hk,
          dictGet_cons_ne _ _ (fun h => hk h.symm)]
    · rw [sde_cons_ne v rest vs ha]
      by_cases hk : k' = a
      · subst hk
        rw [dictGet_cons_eq _ _ rfl, if_neg ha, dictGet_cons_eq _ _ rfl]
      · rw [dictGet_cons_ne _ _ (fun h => hk h.symm), ih]
        by_cases hkk : k' = k
        · rw [if_pos hkk, if_pos hkk, dictGet_cons_ne _ _ ha]
        · rw [if_neg hkk, if_neg hkk, dictGet_cons_ne _ _ (fun h => hk h.symm)]

theorem dictAssign_not_mem (m : SkillDict) (k : Str) (v : List Str)
    (h : k ∉ keysOf m) : dictAssign m k v = m ++ [(k, v)] := by
  induction m with
  | nil => rfl
  | cons p rest ih =>
    obtain ⟨a, w⟩ := p
    simp only [keysOf, List.map_cons, List.mem_cons] at h
    push_neg at h
    have ha : a ≠ k := fun he => h.1 he.symm
    simp only [dictAssign, if_neg ha, List.cons_append]
    rw [ih (by simpa [keysOf] using h.2)]

/-- All category path strings that `determine_primary_category` can
return. -/
def allCategoryNames : List String :=
  MAIN_CATEGORIES.map Prod.fst ++ NON_TECH_CATEGORIES.map Prod.fst ++
    GENERAL_TECH_CATS.map (fun p => "GENERAL_TECH_" ++ p.1) ++ ["GENERAL_TECH"]

theorem findCat_some_mem {cats : List (String × List String)} {n : Str}
    {c : String} (h : findCat cats n = some c) : c ∈ cats.map Prod.fst := by
  rcases List.exists_of_findSome?_eq_some h with ⟨p, hp, hf⟩
  by_cases hm : anyKeywordMatches p.2 n = true
  · rw [if_pos hm] at hf
    injection hf with hf
    exact hf ▸ List.mem_map.mpr ⟨p, hp, rfl⟩
  · rw [if_neg hm] at hf
    cases hf

theorem determine_mem_allCategoryNames (s : Str) :
    determine_primary_category s ∈ allCategoryNames := by
  simp only [determine_primary_category, allCategoryNames]
  cases hm : findCat MAIN_CATEGORIES (normalize_skill s) with
  | some c =>
    simp only [List.mem_append]
    exact Or.inl (Or.inl (Or.inl (findCat_some_mem hm)))
  | none =>
    cases hn : findCat NON_TECH_CATEGORIES (normalize_skill s) with
    | some c =>
      simp only [List.mem_append]
      exact Or.inl (Or.inl (Or.inr (findCat_some_mem hn)))
    | none =>
      cases hg : findCat GENERAL_TECH_CATS (normalize_skill s) with
      | some sub =>
        simp only [List.mem_append]
        refine Or.inl (Or.inr ?_)
        rcases List.mem_map.mp (findCat_some_mem hg) with ⟨p, hp, rfl⟩
        exact List.mem_map.mpr ⟨p, hp, rfl⟩
      | none =>
        simp

/-- Every possible category name contains an uppercase character. -/
theorem allCategoryNames_upper :
    ∀ c ∈ allCategoryNames, c.data.any Char.isUpper = true := by decide

/-- A string without uppercase characters differs from every category
name. -/
theorem lower_ne_catName {k : Str} (hk : ∀ c ∈ k, c.isUpper = false)
    {c : String} (hc : c ∈ allCategoryNames) : k ≠ c.data := by
  intro he
  rcases List.any_eq_true.mp (allCategoryNames_upper c hc) with ⟨ch, hch, hup⟩
  rw [← he] at hch
  rw [hk ch hch] at hup
  cases hup

theorem keysOf_cons (p : Str × List Str) (rest : SkillDict) :
    keysOf (p :: rest) = p.1 :: keysOf rest := rfl

theorem keysOf_append (m₁ m₂ : SkillDict) :
    keysOf (m₁ ++ m₂) = keysOf m₁ ++ keysOf m₂ := by
  simp [keysOf]

/-- Membership through the Stage-2 fold: with distinct group keys that
collide with no category name (and with nothing in the accumulator), the
fold neither loses nor invents members. -/
theorem csFold_flatVals_mem (groups : SkillDict) :
    ∀ acc : SkillDict,
      (keysOf groups).Nodup →
      (∀ k ∈ keysOf groups, ∀ c ∈ k, c.isUpper = false) →
      (∀ k ∈ keysOf groups, k ∉ keysOf acc) →
      ∀ x, x ∈ flatVals (groups.foldl csStep acc) ↔
        x ∈ flatVals acc ∨ x ∈ flatVals groups := by
  induction groups with
  | nil => intro acc _ _ _ x; simp [flatVals]
  | cons p rest ih =>
    intro acc hnd hlow hdisj x
    obtain ⟨g, mems⟩ := p
    rw [keysOf_cons] at hnd hlow hdisj
    simp only [List.nodup_cons] at hnd
    have hfoldeq : ((g, mems) :: rest).foldl csStep acc =
        rest.foldl csStep (csStep acc (g, mems)) := rfl
    by_cases hsize : mems.length < MIN_GROUP_SIZE
    · have hstep : csStep acc (g, mems) =
          setdefaultExtend acc (determine_primary_category g).data mems := by
        simp [csStep, hsize]
      rw [hfoldeq, hstep]
      rw [ih _ hnd.2 (fun k hk => hlow k (List.mem_cons_of_mem _ hk)) ?hd x]
      case hd =>
        intro k hk
        intro hmem
        rcases (sde_keys_mem acc (determine_primary_category g).data mems k).mp hmem with
          h' | h'
        · exact hdisj k (List.mem_cons_of_mem _ hk) h'
        · exact lower_ne_catName (hlow k (List.mem_cons_of_mem _ hk))
            (determine_mem_allCategoryNames g) h'
      rw [sde_flatVals_mem, flatVals_cons]
      simp only [List.mem_append]
      tauto
    · have hg : g ∉ keysOf acc := hdisj g (by simp)
      have hstep : csStep acc (g, mems) = acc ++ [(g, mems)] := by
        simp only [csStep, if_neg hsize]
        exact dictAssign_not_mem acc g mems hg
      rw [hfoldeq, hstep]
      rw [ih _ hnd.2 (fun k hk => hlow k (List.mem_cons_of_mem _ hk)) ?hd x]
      case hd =>
        intro k hk hmem
        rw [keysOf_append] at hmem
        rcases List.mem_append.mp hmem with h' | h'
        · exact hdisj k (List.mem_cons_of_mem _ hk) h'
        · simp only [keysOf, List.map_cons, List.map_nil,
            List.mem_singleton] at h'
          subst h'
          exact hnd.1 hk
      rw [flatVals_append, flatVals_cons]
      simp only [List.mem_append, flatVals, List.flatMap_cons, List.flatMap_nil,
        List.append_nil]
      tauto

theorem mem_dedupSort (v : List Str) (x : Str) :
    x ∈ dedupSort v ↔ x ∈ v := by
  rw [dedupSort, List.mem_insertionSort, List.mem_dedup]

theorem dedupSort_nodup (v : List Str) : (dedupSort v).Nodup :=
  (List.perm_insertionSort _ _).nodup_iff.mpr (List.nodup_dedup v)

theorem dedupSort_sorted (v : List Str) :
    List.Sorted (fun a b : Str => a ≤ b) (dedupSort v) :=
  List.sorted_insertionSort _ _

/-- Two member sets with the same elements have equal `sorted(set(·))`
forms. -/
theorem dedupSort_ext {v₁ v₂ : List Str} (h : ∀ x, x ∈ v₁ ↔ x ∈ v₂) :
    dedupSort v₁ = dedupSort v₂ := by
  refine List.eq_of_perm_of_sorted ?_ (dedupSort_sorted v₁) (dedupSort_sorted v₂)
  refine (List.perm_ext_iff_of_nodup (dedupSort_nodup v₁) (dedupSort_nodup v₂)).mpr ?_
  intro a
  rw [mem_dedupSort, mem_dedupSort]
  exact h a

theorem mapValues_flatVals_mem (m : SkillDict) (x : Str) :
    x ∈ flatVals (m.map (fun p => (p.1, dedupSort p.2))) ↔ x ∈ flatVals m := by
  constructor
  · intro h
    rcases mem_flatVals.mp h with ⟨p, hp, hx⟩
    rcases List.mem_map.mp hp with ⟨q, hq, rfl⟩
    exact mem_flatVals.mpr ⟨q, hq, (mem_dedupSort q.2 x).mp hx⟩
  · intro h
    rcases mem_flatVals.mp h with ⟨q, hq, hx⟩
    exact mem_flatVals.mpr ⟨(q.1, dedupSort q.2), List.mem_map.mpr ⟨q, hq, rfl⟩,
      (mem_dedupSort q.2 x).mpr hx⟩

theorem dictGet_mapValues (m : SkillDict) (k : Str) :
    dictGet (m.map (fun p => (p.1, dedupSort p.2))) k =
      (dictGet m k).map dedupSort := by
  induction m with
  | nil => rfl
  | cons p rest ih =>
    obtain ⟨a, v⟩ := p
    by_cases ha : a = k
    · subst ha
      rw [List.map_cons]
      rw [dictGet_cons_eq _ _ rfl, dictGet_cons_eq _ _ rfl]
      rfl
    · rw [List.map_cons]
      rw [dictGet_cons_ne (a := a) _ _ ha, dictGet_cons_ne _ _ ha]
      exact ih

theorem consolidate_flatVals_mem (groups : SkillDict)
    (hnd : (keysOf groups).Nodup)
    (hlow : ∀ k ∈ keysOf groups, ∀ c ∈ k, c.isUpper = false) (x : Str) :
    x ∈ flatVals (consolidate_groups groups) ↔ x ∈ flatVals groups := by
  rw [consolidate_groups, mapValues_flatVals_mem,
    csFold_flatVals_mem groups [] hnd hlow (by simp [keysOf]) x]
  simp [flatVals]

/-- The members of `xs` that survive the Discard Filter and whose own
primary category is `k`, in order. -/
def survivors (xs : List Str) (k : Str) : List Str :=
  xs.filter (fun s => !should_discard s && ((determine_primary_category s).data == k))

theorem mem_survivors (xs : List Str) (k x : Str) :
    x ∈ survivors xs k ↔
      x ∈ xs ∧ should_discard x = false ∧ (determine_primary_category x).data = k := by
  simp only [survivors, List.mem_filter, Bool.and_eq_true, beq_iff_eq,
    Bool.not_eq_true']

theorem survivors_cons_discard {s : Str} (xs : List Str) (k : Str)
    (hd : should_discard s = true) : survivors (s :: xs) k = survivors xs k := by
  simp [survivors, List.filter_cons, hd]

theorem survivors_cons_eq {s : Str} (xs : List Str) (k : Str)
    (hd : should_discard s = false) (hk : (determine_primary_category s).data = k) :
    survivors (s :: xs) k = s :: survivors xs k := by
  simp [survivors, List.filter_cons, hd, hk]

theorem survivors_cons_ne {s : Str} (xs : List Str) (k : Str)
    (hk : (determine_primary_category s).data ≠ k) :
    survivors (s :: xs) k = survivors xs k := by
  by_cases hd : should_discard s = true
  · exact survivors_cons_discard xs k hd
  · simp [survivors, List.filter_cons, hk]

/-- Characterization of the Stage-3 fold: the bucket of `k` accumulates,
after whatever the accumulator already held at `k`, exactly the surviving
members whose own category is `k`, in order. -/
theorem frFold_dictGet (xs : List Str) :
    ∀ (acc : SkillDict) (k : Str),
      dictGet (xs.foldl frStep acc) k =
        if dictGet acc k = none ∧ survivors xs k = [] then none
        else some ((dictGet acc k).getD [] ++ survivors xs k) := by
  induction xs with
  | nil =>
    intro acc k
    cases h : dictGet acc k with
    | none => simp [survivors, h]
    | some v => simp [survivors, h]
  | cons s xs ih =>
    intro acc k
    have hfold : ((s :: xs).foldl frStep acc) = xs.foldl frStep (frStep acc s) := rfl
    by_cases hd : should_discard s = true
    · have hstep : frStep acc s = acc := by simp [frStep, hd]
      rw [hfold, hstep, survivors_cons_discard xs k hd, ih]
    · have hd' : should_discard s = false := by simpa using hd
      have hstep : frStep acc s =
          setdefaultExtend acc (determine_primary_category s).data [s] := by
        simp [frStep, hd']
      rw [hfold, hstep, ih]
      by_cases hk : (determine_primary_category s).data = k
      · rw [survivors_cons_eq xs k hd' hk, sde_dictGet, if_pos hk.symm, hk]
        cases h : dictGet acc k with
        | none => simp [h]
        | some v => simp [h, List.append_assoc]
      · have e := sde_dictGet acc (determine_primary_category s).data [s] k
        rw [if_neg (fun he => hk he.symm)] at e
        rw [survivors_cons_ne xs k hk, e]

theorem frFold_keys_nodup (xs : List Str) :
    ∀ acc : SkillDict, (keysOf acc).Nodup →
      (keysOf (xs.foldl frStep acc)).Nodup := by
  induction xs with
  | nil => intro acc h; exact h
  | cons s xs ih =>
    intro acc h
    have hfold : ((s :: xs).foldl frStep acc) = xs.foldl frStep (frStep acc s) := rfl
    rw [hfold]
    refine ih _ ?_
    by_cases hd : should_discard s = true
    · simpa [frStep, hd] using h
    · have hd' : should_discard s = false := by simpa using hd
      simpa [frStep, hd'] using sde_keys_nodup acc _ [s] h

theorem frFold_flatVals_mem (xs : List Str) :
    ∀ (acc : SkillDict) (x : Str),
      x ∈ flatVals (xs.foldl frStep acc) ↔
        x ∈ flatVals acc ∨ (x ∈ xs ∧ should_discard x = false) := by
  induction xs with
  | nil => intro acc x; simp
  | cons s xs ih =>
    intro acc x
    have hfold : ((s :: xs).foldl frStep acc) = xs.foldl frStep (frStep acc s) := rfl
    rw [hfold, ih]
    by_cases hd : should_discard s = true
    · have hstep : frStep acc s = acc := by simp [frStep, hd]
      rw [hstep]
      constructor
      · rintro (h | h)
        · exact Or.inl h
        · exact Or.inr ⟨List.mem_cons_of_mem _ h.1, h.2⟩
      · rintro (h | ⟨hmem, hsur⟩)
        · exact Or.inl h
        · rcases List.mem_cons.mp hmem with rfl | h'
          · rw [hd] at hsur; cases hsur
          · exact Or.inr ⟨h', hsur⟩
    · have hd' : should_discard s = false := by simpa using hd
      have hstep : frStep acc s =
          setdefaultExtend acc (determine_primary_category s).data [s] := by
        simp [frStep, hd']
      rw [hstep, sde_flatVals_mem]
      constructor
      · rintro ((h | h) | h)
        · exact Or.inl h
        · rcases List.mem_singleton.mp h with rfl
          exact Or.inr ⟨by simp, hd'⟩
        · exact Or.inr ⟨List.mem_cons_of_mem _ h.1, h.2⟩
      · rintro (h | ⟨hmem, hsur⟩)
        · exact Or.inl (Or.inl h)
        · rcases List.mem_cons.mp hmem with rfl | h'
          · exact Or.inl (Or.inr (by simp))
          · exact Or.inr ⟨h', hsur⟩

theorem stage3_fold_eq (groups : SkillDict) :
    ∀ acc : SkillDict,
      groups.foldl (fun a p => p.2.foldl frStep a) acc =
        (flatVals groups).foldl frStep acc := by
  induction groups with
  | nil => intro acc; rfl
  | cons p rest ih =>
    intro acc
    rw [flatVals_cons, List.foldl_append]
    exact ih _

theorem keysOf_mapValues (m : SkillDict) :
    keysOf (m.map (fun p => (p.1, dedupSort p.2))) = keysOf m := by
  simp [keysOf, List.map_map]

/-- Membership is preserved from the input list through Stages 1 and 2:
the groups partition the input, and for lowercase inputs the group keys
cannot collide with (uppercase) category names, so consolidation loses
nothing. -/
theorem stages12_mem (l : List Str)
    (hlow : ∀ s ∈ l, ∀ c ∈ s, c.isUpper = false) (x : Str) :
    x ∈ flatVals (consolidate_groups (create_initial_groups l)) ↔ x ∈ l := by
  have hperm : (flatVals (create_initial_groups l)).Perm l := by
    have h := flatVals_foldl_cigStep l []
    simpa [create_initial_groups, flatVals] using h
  have hknd : (keysOf (create_initial_groups l)).Nodup :=
    keys_foldl_nodup l [] (by simp [keysOf])
  have hklow : ∀ k ∈ keysOf (create_initial_groups l), ∀ c ∈ k, c.isUpper = false := by
    intro k hk
    rcases keys_foldl_sub l [] k hk with h' | h'
    · simp [keysOf] at h'
    · exact hlow k h'
  rw [consolidate_flatVals_mem _ hknd hklow x]
  exact hperm.mem_iff

/-- The final bucket of `k` is exactly the sorted set of members surviving
Stage 3 whose own category is `k` (or absent when there are none). -/
theorem pipeline_dictGet (l : List Str) (k : Str) :
    dictGet (pipeline l) k =
      if survivors (flatVals (consolidate_groups (create_initial_groups l))) k = []
      then none
      else some (dedupSort
        (survivors (flatVals (consolidate_groups (create_initial_groups l))) k)) := by
  rw [pipeline, filter_and_reclassify_groups, dictGet_mapValues,
    stage3_fold_eq _ [], frFold_dictGet _ [] k]
  simp only [dictGet_nil, true_and]
  by_cases h : survivors (flatVals (consolidate_groups (create_initial_groups l))) k = []
  · simp [h]
  · simp [h]

/-- C2: determinism.  The pipeline of the embedding is a pure function, so
running it twice on the same input is byte-identical by definition; the
substantive content proved here is stronger: the final category-to-skills
mapping depends only on the membership of the (lowercase) input list — any
two inputs with the same elements, in any order, give the same bucket for
every category.  (This is what makes the Python program's output mapping a
function of the extracted skill set even though `list(set(...))` leaves the
processing order unspecified.) -/
theorem pipeline_deterministic (l₁ l₂ : List Str)
    (hlow₁ : ∀ s ∈ l₁, ∀ c ∈ s, c.isUpper = false)
    (hlow₂ : ∀ s ∈ l₂, ∀ c ∈ s, c.isUpper = false)
    (h₁₂ : l₁ ⊆ l₂) (h₂₁ : l₂ ⊆ l₁) (k : Str) :
    dictGet (pipeline l₁) k = dictGet (pipeline l₂) k := by
  have hmem : ∀ x,
      x ∈ survivors (flatVals (consolidate_groups (create_initial_groups l₁))) k ↔
      x ∈ survivors (flatVals (consolidate_groups (create_initial_groups l₂))) k := by
    intro x
    rw [mem_survivors, mem_survivors, stages12_mem l₁ hlow₁ x, stages12_mem l₂ hlow₂ x]
    constructor
    · rintro ⟨h, h2, h3⟩
      exact ⟨h₁₂ h, h2, h3⟩
    · rintro ⟨h, h2, h3⟩
      exact ⟨h₂₁ h, h2, h3⟩
  rw [pipeline_dictGet l₁ k, pipeline_dictGet l₂ k]
  by_cases h1 : survivors (flatVals (consolidate_groups (create_initial_groups l₁))) k = []
  · have h2 : survivors (flatVals (consolidate_groups (create_initial_groups l₂))) k = [] := by
      rw [List.eq_nil_iff_forall_not_mem] at h1 ⊢
      intro x hx
      exact h1 x ((hmem x).mpr hx)
    rw [if_pos h1, if_pos h2]
  · have h2 : survivors (flatVals (consolidate_groups (create_initial_groups l₂))) k ≠ [] := by
      intro he
      apply h1
      rw [List.eq_nil_iff_forall_not_mem] at he ⊢
      intro x hx
      exact he x ((hmem x).mp hx)
    rw [if_neg h1, if_neg h2, dedupSort_ext hmem]

/-- Witness for the C2 theorem: two orderings of the same input give the
same bucket. -/
theorem pipeline_deterministic_witness :
    dictGet (pipeline [lit "python", lit "sql"]) (lit "DATA_DATABASE_SQL") =
      dictGet (pipeline [lit "sql", lit "python"]) (lit "DATA_DATABASE_SQL") :=
  pipeline_deterministic [lit "python", lit "sql"] [lit "sql", lit "python"]
    (by decide) (by decide) (by decide) (by decide) (lit "DATA_DATABASE_SQL")

theorem countP_mem_eq_one {m : SkillDict} {s : Str} {c : Str}
    (hnd : (keysOf m).Nodup) (hc : c ∈ keysOf m)
    (hiff : ∀ b ∈ m, s ∈ b.2 ↔ b.1 = c) :
    m.countP (fun b => decide (s ∈ b.2)) = 1 := by
  induction m with
  | nil => simp [keysOf] at hc
  | cons b rest ih =>
    rw [keysOf_cons] at hnd hc
    simp only [List.nodup_cons] at hnd
    rw [List.countP_cons]
    by_cases hb : b.1 = c
    · have hsb : s ∈ b.2 := (hiff b (by simp)).mpr hb
      have hrest : rest.countP (fun q => decide (s ∈ q.2)) = 0 := by
        rw [List.countP_eq_zero]
        intro q hq
        simp only [decide_eq_true_eq]
        intro hsq
        have hq1 : q.1 = c := (hiff q (List.mem_cons_of_mem _ hq)).mp hsq
        apply hnd.1
        have hqm : q.1 ∈ keysOf rest := List.mem_map.mpr ⟨q, hq, rfl⟩
        rwa [hq1, ← hb] at hqm
      simp [hrest, hsb]
    · have hsb : s ∉ b.2 := fun h => hb ((hiff b (by simp)).mp h)
      have hc' : c ∈ keysOf rest := by
        rcases List.mem_cons.mp hc with h | h
        · exact absurd h.symm hb
        · exact h
      rw [ih hnd.2 hc' (fun q hq => hiff q (List.mem_cons_of_mem _ hq))]
      simp [hsb]

/-- C1: total coverage.  For an input list of distinct lowercase (cleaned)
skills, a skill that the Discard Filter keeps appears in exactly one final
bucket (and only once in it), every final bucket is duplicate-free, and the
union of the final buckets is exactly the set of non-discarded input
skills — no duplication, no loss. -/
theorem pipeline_total_coverage (skills : List Str) (s : Str)
    (_hnd : skills.Nodup)
    (hlow : ∀ t ∈ skills, ∀ c ∈ t, c.isUpper = false)
    (hs : s ∈ skills) (hsurv : should_discard s = false) :
    (pipeline skills).countP (fun b => decide (s ∈ b.2)) = 1 ∧
    (∀ b ∈ pipeline skills, b.2.Nodup) ∧
    (∀ x, x ∈ flatVals (pipeline skills) ↔
      (x ∈ skills ∧ should_discard x = false)) := by
  have hxs := stages12_mem skills hlow
  have hpipe : pipeline skills =
      ((flatVals (consolidate_groups (create_initial_groups skills))).foldl
        frStep []).map (fun p => (p.1, dedupSort p.2)) := by
    rw [pipeline, filter_and_reclassify_groups, stage3_fold_eq]
  have hMnd : (keysOf ((flatVals (consolidate_groups
      (create_initial_groups skills))).foldl frStep [])).Nodup :=
    frFold_keys_nodup _ [] (by simp [keysOf])
  have hMget : ∀ q ∈ (flatVals (consolidate_groups
      (create_initial_groups skills))).foldl frStep [],
      q.2 = survivors (flatVals (consolidate_groups
        (create_initial_groups skills))) q.1 := by
    intro q hq
    have h1 : dictGet ((flatVals (consolidate_groups
        (create_initial_groups skills))).foldl frStep []) q.1 = some q.2 :=
      dictGet_of_mem_nodup hMnd hq
    rw [frFold_dictGet _ [] q.1] at h1
    simp only [dictGet_nil, true_and, Option.getD_none, List.nil_append] at h1
    by_cases he : survivors (flatVals (consolidate_groups
        (create_initial_groups skills))) q.1 = []
    · rw [if_pos he] at h1
      cases h1
    · rw [if_neg he] at h1
      injection h1 with h1
      exact h1.symm
  refine ⟨?_, ?_, ?_⟩
  · have hsx : s ∈ flatVals (consolidate_groups (create_initial_groups skills)) :=
      (hxs s).mpr hs
    have hsurvmem : s ∈ survivors (flatVals (consolidate_groups
        (create_initial_groups skills))) (determine_primary_category s).data :=
      (mem_survivors _ _ _).mpr ⟨hsx, hsurv, rfl⟩
    have hne : survivors (flatVals (consolidate_groups
        (create_initial_groups skills))) (determine_primary_category s).data ≠ [] := by
      intro he
      rw [he] at hsurvmem
      simp at hsurvmem
    have hkey : (determine_primary_category s).data ∈
        keysOf ((flatVals (consolidate_groups
          (create_initial_groups skills))).foldl frStep []) := by
      by_contra hno
      have := (dictGet_eq_none_iff _ _).mpr hno
      rw [frFold_dictGet _ [] _] at this
      rw [if_neg (by simp [hne])] at this
      cases this
    rw [hpipe]
    refine countP_mem_eq_one (c := (determine_primary_category s).data) ?_ ?_ ?_
    · rw [keysOf_mapValues]
      exact hMnd
    · rw [keysOf_mapValues]
      exact hkey
    · intro b hb
      rcases List.mem_map.mp hb with ⟨q, hq, rfl⟩
      simp only
      rw [mem_dedupSort, hMget q hq, mem_survivors]
      constructor
      · rintro ⟨-, -, h3⟩
        exact h3.symm
      · intro h
        exact ⟨hsx, hsurv, h.symm⟩
  · intro b hb
    rw [hpipe] at hb
    rcases List.mem_map.mp hb with ⟨q, hq, rfl⟩
    exact dedupSort_nodup q.2
  · intro x
    rw [hpipe, mapValues_flatVals_mem, frFold_flatVals_mem _ [] x]
    simp only [flatVals, List.flatMap_nil, List.not_mem_nil, false_or]
    constructor
    · rintro ⟨h1, h2⟩
      exact ⟨(hxs x).mp h1, h2⟩
    · rintro ⟨h1, h2⟩
      exact ⟨(hxs x).mpr h1, h2⟩

/-- Witness for the C1 theorem: `"python"` lands in exactly one bucket of
the pipeline over `["python", "sql"]`. -/
theorem pipeline_total_coverage_witness :
    (pipeline [lit "python", lit "sql"]).countP
      (fun b => decide ((lit "python") ∈ b.2)) = 1 :=
  (pipeline_total_coverage [lit "python", lit "sql"] (lit "python")
    (by decide) (by decide) (by decide) (by decide)).1

theorem dropWhile_head_not {p : Char → Bool} :
    ∀ {z : Str} {d : Char} {t : Str}, z.dropWhile p = d :: t → p d = false := by
  intro z
  induction z with
  | nil => intro d t h; cases h
  | cons c rest ih =>
    intro d t h
    by_cases hc : p c = true
    · rw [List.dropWhile_cons_of_pos hc] at h
      exact ih h
    · rw [List.dropWhile_cons_of_neg hc] at h
      injection h with h1 _
      subst h1
      simpa using hc

theorem dropWhile_eq_self_of_head {p : Char → Bool} {z : Str}
    (h : ∀ d t, z = d :: t → p d = false) : z.dropWhile p = z := by
  cases z with
  | nil => rfl
  | cons d t => exact List.dropWhile_cons_of_neg (by simp [h d t rfl])

theorem dropTrailingWs_cons_pos {c : Char} {rest : Str}
    (h : ((dropTrailingWs rest).isEmpty && isSpacePy c) = true) :
    dropTrailingWs (c :: rest) = [] := by
  simp only [dropTrailingWs]
  rw [if_pos h]

theorem dropTrailingWs_cons_neg {c : Char} {rest : Str}
    (h : ((dropTrailingWs rest).isEmpty && isSpacePy c) = false) :
    dropTrailingWs (c :: rest) = c :: dropTrailingWs rest := by
  simp only [dropTrailingWs]
  rw [if_neg (by simp [h])]

theorem dropTrailingWs_cases (c : Char) (rest : Str) :
    dropTrailingWs (c :: rest) = [] ∨
      dropTrailingWs (c :: rest) = c :: dropTrailingWs rest := by
  by_cases h : ((dropTrailingWs rest).isEmpty && isSpacePy c) = true
  · exact Or.inl (dropTrailingWs_cons_pos h)
  · exact Or.inr (dropTrailingWs_cons_neg (by simpa using h))

theorem dropTrailingWs_head {z : Str} {d : Char} {t : Str}
    (h : dropTrailingWs z = d :: t) : ∃ t', z = d :: t' := by
  cases z with
  | nil => cases h
  | cons c rest =>
    rcases dropTrailingWs_cases c rest with he | he
    · rw [he] at h; cases h
    · rw [he] at h
      injection h with h1 _
      exact ⟨rest, by rw [h1]⟩

theorem dropTrailingWs_idem (z : Str) :
    dropTrailingWs (dropTrailingWs z) = dropTrailingWs z := by
  induction z with
  | nil => rfl
  | cons c rest ih =>
    by_cases hcond : ((dropTrailingWs rest).isEmpty && isSpacePy c) = true
    · rw [dropTrailingWs_cons_pos hcond]
      rfl
    · have hcond' : ((dropTrailingWs rest).isEmpty && isSpacePy c) = false := by
        simpa using hcond
      rw [dropTrailingWs_cons_neg hcond']
      rw [dropTrailingWs_cons_neg (by rw [ih]; exact hcond'), ih]

theorem stripPy_idem (x : Str) : stripPy (stripPy x) = stripPy x := by
  unfold stripPy
  rw [dropWhile_eq_self_of_head (p := isSpacePy) ?hd]
  · exact dropTrailingWs_idem _
  case hd =>
    intro d t h
    rcases dropTrailingWs_head h with ⟨t', ht'⟩
    exact dropWhile_head_not ht'

theorem normalize_stripped (s : Str) :
    stripPy (normalize_skill s) = normalize_skill s := by
  simp only [normalize_skill]
  by_cases h : s.isEmpty = true
  · rw [if_pos h]
    rfl
  · rw [if_neg h]
    exact stripPy_idem _

/-- No two adjacent whitespace characters. -/
def noTwoSp : Str → Bool
  | a :: b :: t => (!(isSpacePy a && isSpacePy b)) && noTwoSp (b :: t)
  | _ => true

theorem noTwoSp_tail {c : Char} {t : Str} (h : noTwoSp (c :: t) = true) :
    noTwoSp t = true := by
  cases t with
  | nil => rfl
  | cons b t' =>
    simp only [noTwoSp, Bool.and_eq_true] at h
    exact h.2

theorem noTwoSp_pair {c d : Char} {t : Str} (h : noTwoSp (c :: d :: t) = true) :
    (isSpacePy c && isSpacePy d) = false := by
  simp only [noTwoSp, Bool.and_eq_true] at h
  have h1 := h.1
  by_cases hcd : (isSpacePy c && isSpacePy d) = true
  · rw [hcd] at h1
    simp at h1
  · simpa using hcd

theorem noTwoSp_cons_of_head {c : Char} {z : Str}
    (hz : ∀ d t, z = d :: t → (isSpacePy c && isSpacePy d) = false)
    (h : noTwoSp z = true) : noTwoSp (c :: z) = true := by
  cases z with
  | nil => rfl
  | cons d t =>
    simp only [noTwoSp, Bool.and_eq_true]
    exact ⟨by simp [hz d t rfl], h⟩

theorem noTwoSp_dropWhile (p : Char → Bool) (l : Str) (h : noTwoSp l = true) :
    noTwoSp (l.dropWhile p) = true := by
  induction l with
  | nil => rfl
  | cons c rest ih =>
    by_cases hc : p c = true
    · rw [List.dropWhile_cons_of_pos hc]
      exact ih (noTwoSp_tail h)
    · rw [List.dropWhile_cons_of_neg (by simp [hc])]
      exact h

theorem noTwoSp_dropTrailingWs (l : Str) (h : noTwoSp l = true) :
    noTwoSp (dropTrailingWs l) = true := by
  induction l with
  | nil => rfl
  | cons c rest ih =>
    rcases dropTrailingWs_cases c rest with he | he
    · rw [he]; rfl
    · rw [he]
      refine noTwoSp_cons_of_head ?_ (ih (noTwoSp_tail h))
      intro d t hdt
      rcases dropTrailingWs_head hdt with ⟨t', ht'⟩
      rw [ht'] at h
      exact noTwoSp_pair h

theorem collapseWsAux_nil (fuel : Nat) : collapseWsAux fuel [] = [] := by
  cases fuel <;> rfl

theorem collapseWsAux_head {fuel : Nat} {d : Char} (t : Str)
    (hd : isSpacePy d = false) :
    ∃ t', collapseWsAux fuel (d :: t) = d :: t' := by
  cases fuel with
  | zero => exact ⟨t, rfl⟩
  | succ f => exact ⟨collapseWsAux f t, by simp [collapseWsAux, hd]⟩

theorem noTwoSp_collapseWsAux :
    ∀ (fuel : Nat) (y : Str), y.length ≤ fuel →
      noTwoSp (collapseWsAux fuel y) = true := by
  intro fuel
  induction fuel with
  | zero =>
    intro y hy
    rw [List.length_eq_zero.mp (Nat.le_zero.mp hy)]
    rfl
  | succ f ih =>
    intro y hy
    cases y with
    | nil => rfl
    | cons c rest =>
      simp only [List.length_cons] at hy
      by_cases hc : isSpacePy c = true
      · have e : collapseWsAux (f + 1) (c :: rest) =
            ' ' :: collapseWsAux f (rest.dropWhile isSpacePy) := by
          simp [collapseWsAux, hc]
        rw [e]
        have hfw : (rest.dropWhile isSpacePy).length ≤ f :=
          le_trans (lengthDropWhileLe _ rest) (Nat.le_of_succ_le_succ hy)
        refine noTwoSp_cons_of_head ?_ (ih _ hfw)
        intro d t hdt
        cases hww : rest.dropWhile isSpacePy with
        | nil =>
          rw [hww, collapseWsAux_nil] at hdt
          cases hdt
        | cons d₀ t₀ =>
          have hd₀ : isSpacePy d₀ = false := dropWhile_head_not hww
          rcases @collapseWsAux_head f d₀ t₀ hd₀ with ⟨t', ht'⟩
          rw [hww, ht'] at hdt
          injection hdt with h1 _
          subst h1
          simp [hd₀]
      · have e : collapseWsAux (f + 1) (c :: rest) = c :: collapseWsAux f rest := by
          simp [collapseWsAux, hc]
        rw [e]
        refine noTwoSp_cons_of_head ?_ (ih rest (Nat.le_of_succ_le_succ hy))
        intro d t _
        simp [hc]

theorem noTwoSp_normalize (s : Str) : noTwoSp (normalize_skill s) = true := by
  simp only [normalize_skill]
  by_cases h : s.isEmpty = true
  · rw [if_pos h]; rfl
  · rw [if_neg h]
    unfold stripPy
    exact noTwoSp_dropTrailingWs _ (noTwoSp_dropWhile _ _
      (noTwoSp_collapseWsAux _ _ (le_refl _)))

theorem collapseWsAux_id :
    ∀ (fuel : Nat) (x : Str),
      (∀ c ∈ x, isSpacePy c = true → c = ' ') →
      noTwoSp x = true →
      collapseWsAux fuel x = x := by
  intro fuel
  induction fuel with
  | zero => intro x _ _; cases x <;> rfl
  | succ f ih =>
    intro x hsp hn
    cases x with
    | nil => rfl
    | cons c rest =>
      by_cases hc : isSpacePy c = true
      · have hcs : c = ' ' := hsp c (by simp) hc
        have e : collapseWsAux (f + 1) (c :: rest) =
            ' ' :: collapseWsAux f (rest.dropWhile isSpacePy) := by
          simp [collapseWsAux, hc]
        have hrest : rest.dropWhile isSpacePy = rest := by
          apply dropWhile_eq_self_of_head
          intro d t hdt
          rw [hdt] at hn
          have := noTwoSp_pair hn
          rw [hc] at this
          simpa using this
        rw [e, hrest,
          ih rest (fun d hd => hsp d (List.mem_cons_of_mem _ hd)) (noTwoSp_tail hn),
          ← hcs]
      · have e : collapseWsAux (f + 1) (c :: rest) = c :: collapseWsAux f rest := by
          simp [collapseWsAux, hc]
        rw [e,
          ih rest (fun d hd => hsp d (List.mem_cons_of_mem _ hd)) (noTwoSp_tail hn)]

theorem collapseWs_id (x : Str)
    (hsp : ∀ c ∈ x, isSpacePy c = true → c = ' ')
    (hn : noTwoSp x = true) : collapseWs x = x :=
  collapseWsAux_id x.length x hsp hn

theorem pyReplaceAux_id {pat rep : Str} {ch : Char} (hch : ch ∈ pat) :
    ∀ (fuel : Nat) (x : Str), ch ∉ x → pyReplaceAux pat rep fuel x = x := by
  intro fuel
  induction fuel with
  | zero => intro x _; cases x <;> rfl
  | succ f ih =>
    intro x hx
    cases x with
    | nil => rfl
    | cons c rest =>
      have hpre : pat.isPrefixOf (c :: rest) = false := by
        by_cases hb : pat.isPrefixOf (c :: rest) = true
        · exact absurd ((List.isPrefixOf_iff_prefix.mp hb).subset hch) hx
        · exact Bool.eq_false_iff.mpr hb
      have e : pyReplaceAux pat rep (f + 1) (c :: rest) =
          c :: pyReplaceAux pat rep f rest := by
        simp [pyReplaceAux, hpre]
      rw [e, ih rest (fun h => hx (List.mem_cons_of_mem _ h))]

theorem pyReplace_id {x pat rep : Str} {ch : Char} (hch : ch ∈ pat)
    (hx : ch ∉ x) : pyReplace x pat rep = x :=
  pyReplaceAux_id hch x.length x hx

theorem wordSubAux_id {pat rep s : Str}
    (hno : ∀ i, i < s.length → matchWordAt pat s i = false) :
    ∀ (fuel i : Nat), s.length + 1 ≤ fuel + i →
      wordSubAux pat rep s i fuel = s.drop i := by
  intro fuel
  induction fuel with
  | zero =>
    intro i hi
    rw [List.drop_eq_nil_of_le (by omega)]
    rfl
  | succ f ih =>
    intro i hi
    cases hsi : s[i]? with
    | none =>
      rw [List.drop_eq_nil_of_le (List.getElem?_eq_none_iff.mp hsi)]
      simp [wordSubAux, hsi]
    | some c =>
      have hilen : i < s.length := by
        by_contra h
        rw [List.getElem?_eq_none (by omega)] at hsi
        cases hsi
      have e : wordSubAux pat rep s i (f + 1) =
          c :: wordSubAux pat rep s (i + 1) f := by
        simp [wordSubAux, hsi, hno i hilen]
      rw [e, ih (i + 1) (by omega), List.drop_eq_getElem_cons hilen]
      have hval := List.getElem?_eq_getElem hilen
      rw [hval] at hsi
      injection hsi with hsi
      rw [hsi]

theorem wordSub_id {pat rep s : Str} (h : searchWord pat s = false) :
    wordSub pat rep s = s := by
  have hno : ∀ i, i < s.length → matchWordAt pat s i = false := by
    intro i hi
    unfold searchWord at h
    rw [List.any_eq_false] at h
    have := h i (List.mem_range.mpr (by omega))
    simpa using this
  have hw : wordSubAux pat rep s 0 (s.length + 1) = s.drop 0 :=
    wordSubAux_id hno (s.length + 1) 0 (by omega)
  simpa [wordSub] using hw

theorem foldl_wordSub_id {n : Str} (L : List (String × String))
    (h : ∀ p ∈ L, searchWord p.1.data n = false) :
    L.foldl (fun acc p => wordSub p.1.data p.2.data acc) n = n := by
  induction L with
  | nil => rfl
  | cons p rest ih =>
    have e : (p :: rest).foldl (fun acc q => wordSub q.1.data q.2.data acc) n =
        rest.foldl (fun acc q => wordSub q.1.data q.2.data acc)
          (wordSub p.1.data p.2.data n) := rfl
    rw [e, wordSub_id (h p (by simp))]
    exact ih (fun q hq => h q (List.mem_cons_of_mem _ hq))

theorem normalize_skill_of_ne {s : Str} (h : s.isEmpty = false) :
    normalize_skill s =
      stripPy (collapseWs
        (CATEGORY_ALIASES.foldl (fun acc p => wordSub p.1.data p.2.data acc)
          ((pyReplace (pyReplace (pyReplace (pyReplace (pyReplace
            (stripPy (s.map Char.toLower))
            (lit ".net") (lit "dotnet")) (lit "c#") (lit "csharp"))
            (lit "&") (lit " and ")) (lit "/") (lit " ")) (lit "-") (lit " ")).filter
            keepAlnumSpace))) := by
  simp only [normalize_skill]
  rw [if_neg (by simp [h])]

/-- C3 (amended): `normalize_skill` is idempotent on every input whose
normalized form consists only of lowercase letters, digits and spaces and
contains no whole-word occurrence of any alias key.  (It is not idempotent
in general: the `devops ↦ ci/cd` alias reintroduces a `/`, and the
`cloud ↦ cloud computing` alias reintroduces its own key, so a second pass
rewrites both further — see `normalize_idem_counterexample`.) -/
theorem normalize_skill_idempotent_of_plain (s : Str)
    (h1 : ∀ c ∈ normalize_skill s, c ∈ lit "abcdefghijklmnopqrstuvwxyz0123456789 ")
    (h2 : ∀ p ∈ CATEGORY_ALIASES, searchWord p.1.data (normalize_skill s) = false) :
    normalize_skill (normalize_skill s) = normalize_skill s := by
  by_cases hnil : normalize_skill s = []
  · rw [hnil]
    rfl
  · have hne : (normalize_skill s).isEmpty = false := by
      cases hn : normalize_skill s with
      | nil => exact absurd hn hnil
      | cons a t => rfl
    have hmap : (normalize_skill s).map Char.toLower = normalize_skill s := by
      have hchar : ∀ c ∈ lit "abcdefghijklmnopqrstuvwxyz0123456789 ",
          Char.toLower c = id c := by decide
      rw [List.map_congr_left (fun c hc => hchar c (h1 c hc)), List.map_id]
    have hstrip : stripPy (normalize_skill s) = normalize_skill s :=
      normalize_stripped s
    have hnotmem : ∀ c₀ : Char,
        c₀ ∉ lit "abcdefghijklmnopqrstuvwxyz0123456789 " →
        c₀ ∉ normalize_skill s :=
      fun c₀ hc₀ hc => hc₀ (h1 c₀ hc)
    have hrep1 : pyReplace (normalize_skill s) (lit ".net") (lit "dotnet") =
        normalize_skill s :=
      pyReplace_id (show '.' ∈ lit ".net" by decide) (hnotmem '.' (by decide))
    have hrep2 : pyReplace (normalize_skill s) (lit "c#") (lit "csharp") =
        normalize_skill s :=
      pyReplace_id (show '#' ∈ lit "c#" by decide) (hnotmem '#' (by decide))
    have hrep3 : pyReplace (normalize_skill s) (lit "&") (lit " and ") =
        normalize_skill s :=
      pyReplace_id (show '&' ∈ lit "&" by decide) (hnotmem '&' (by decide))
    have hrep4 : pyReplace (normalize_skill s) (lit "/") (lit " ") =
        normalize_skill s :=
      pyReplace_id (show '/' ∈ lit "/" by decide) (hnotmem '/' (by decide))
    have hrep5 : pyReplace (normalize_skill s) (lit "-") (lit " ") =
        normalize_skill s :=
      pyReplace_id (show '-' ∈ lit "-" by decide) (hnotmem '-' (by decide))
    have hfilter : (normalize_skill s).filter keepAlnumSpace =
        normalize_skill s := by
      have hka : ∀ c ∈ lit "abcdefghijklmnopqrstuvwxyz0123456789 ",
          keepAlnumSpace c = true := by decide
      exact List.filter_eq_self.mpr (fun c hc => hka c (h1 c hc))
    have hfold : CATEGORY_ALIASES.foldl
        (fun acc p => wordSub p.1.data p.2.data acc) (normalize_skill s) =
        normalize_skill s := foldl_wordSub_id CATEGORY_ALIASES h2
    have hcollapse : collapseWs (normalize_skill s) = normalize_skill s := by
      have hspc : ∀ c ∈ lit "abcdefghijklmnopqrstuvwxyz0123456789 ",
          isSpacePy c = true → c = ' ' := by decide
      exact collapseWs_id _ (fun c hc hs => hspc c (h1 c hc) hs)
        (noTwoSp_normalize s)
    rw [normalize_skill_of_ne hne, hmap, hstrip, hrep1, hrep2, hrep3, hrep4,
      hrep5, hfilter, hfold, hcollapse]
    exact hstrip

/-- Witness for the amended C3 theorem at the concrete input `python`. -/
theorem normalize_skill_idempotent_of_plain_witness :
    normalize_skill (normalize_skill (lit "python")) =
      normalize_skill (lit "python") :=
  normalize_skill_idempotent_of_plain (lit "python") (by decide) (by decide)
